import Mathlib

/-!
Verification development for the job-queue / worker-orchestration core of the
4cat backend (`backend/lib/manager.py`, `backend/workers/scrape_boards.py`).

The manager code is translated statement-by-statement from the Python source.
The persistence-layer operations it calls (`Job.claim`, `Job.release`,
`Job.finish`, `JobQueue.add_job`, `JobQueue.get_all_jobs`,
`Job.get_by_remote_ID`) live outside the analysed sources; each such
definition is modelled from the specification and marked as such in its
doc comment.

Time is an abstract `Nat`; worker liveness (`Thread.is_alive`) is an external
observation, modelled as an oracle `Nat → Bool` indexed by a worker handle id;
the actions of other processes on the shared store between polling sleeps are
modelled as an environment function `List Job → List Job`.
-/

namespace FourCat

/-- Modelled from the spec (§3): a persisted job record.  Identity is the
triple (`jobtype`, `remote_id`, `inst`); `claimed` is the exclusive flag and
`claimAfter` the earliest time the record becomes claimable again.  `inst`
renders the spec's `instance` field (a Lean keyword). -/
structure Job where
  id : Nat
  jobtype : String
  remote_id : String
  inst : String
  details : String
  interval : Option Nat
  claimed : Bool
  claimAfter : Nat
deriving DecidableEq, Repr

/-- Modelled from the spec (§7): the error taxonomy of the store operations. -/
inductive QueueError where
  | alreadyClaimed
  | duplicateJob
  | notFound
deriving DecidableEq, Repr

/-- Modelled from the spec (§3): a job is claimable iff `claimed` is false and
the current time is at least `claim_after`. -/
def isClaimable (now : Nat) (j : Job) : Bool :=
  !j.claimed && j.claimAfter ≤ now

/-- Modelled from the spec (§4.1 `list`): filtered enumeration of the store by
optional jobtype, optional remote id and claimability. -/
def get_all_jobs (store : List Job) (jobtype : Option String)
    (remote_id : Option String) (restrict_claimable : Bool) (now : Nat) :
    List Job :=
  store.filter fun j =>
    (match jobtype with
     | some t => j.jobtype == t
     | none => true) &&
    (match remote_id with
     | some r => j.remote_id == r
     | none => true) &&
    (!restrict_claimable || isClaimable now j)

/-- Modelled from the spec (§4.1 `claim`): atomic test-and-set of the
`claimed` flag of the record with the given id; fails with `alreadyClaimed`
unless an unclaimed record with that id is present. -/
def claimJob (store : List Job) (jid : Nat) : Except QueueError (List Job) :=
  if store.any fun j => j.id == jid && !j.claimed then
    .ok (store.map fun j => if j.id == jid then { j with claimed := true } else j)
  else
    .error .alreadyClaimed

/-- Modelled from the spec (§4.1 `release`): clears `claimed` and sets the
next-eligible time of the record with the given id to `now + claim_after`. -/
def releaseJob (store : List Job) (jid : Nat) (claim_after : Nat) (now : Nat) :
    List Job :=
  store.map fun j =>
    if j.id == jid then { j with claimed := false, claimAfter := now + claim_after } else j

/-- A fresh record id: one above every id present in the store. -/
def freshId (store : List Job) : Nat :=
  (store.map Job.id).foldr max 0 + 1

/-- Modelled from the spec (§4.1 `finish`): marks completion; with
`delete := true` the record is removed outright; otherwise the record is
removed and, when `interval` is set, a successor is scheduled for
`now + interval`. -/
def finishJob (store : List Job) (j : Job) (delete : Bool) (now : Nat) :
    List Job :=
  let remaining := store.filter fun x => x.id ≠ j.id
  if delete then remaining
  else
    match j.interval with
    | some iv =>
        remaining ++ [{ j with id := freshId store, claimed := false, claimAfter := now + iv }]
    | none => remaining

/-- Modelled from the spec (§4.1 `create`): fails with `duplicateJob` when an
active job with the same (`jobtype`, `remote_id`, `inst`) already exists
unclaimed; otherwise appends a fresh claimable record. -/
def add_job (store : List Job) (jobtype remote_id inst details : String)
    (interval : Option Nat) : Except QueueError (List Job) :=
  if store.any fun j =>
      j.jobtype == jobtype && j.remote_id == remote_id && j.inst == inst && !j.claimed then
    .error .duplicateJob
  else
    .ok (store ++ [{ id := freshId store, jobtype := jobtype, remote_id := remote_id,
                     inst := inst, details := details, interval := interval,
                     claimed := false, claimAfter := 0 }])

/-- Modelled from the spec (§4.1 `get_by_identity`, called with
`own_instance_only=False` by `request_delete`): lookup by remote id and
jobtype over every instance; fails with `notFound` if absent. -/
def get_by_remote_ID (store : List Job) (remote_id jobtype : String) :
    Except QueueError Job :=
  match store.find? (fun j => j.remote_id == remote_id && j.jobtype == jobtype) with
  | some j => .ok j
  | none => .error .notFound

/-- A pool entry: a spawned worker unit bound to the job it executes.  `wid`
is the runtime handle (thread identity) the liveness oracle is indexed by;
`appname` is the name of the worker's own database connection
(`worker.db.appname`), opaque to the manager source. -/
structure Worker where
  wid : Nat
  job : Job
  appname : String
deriving DecidableEq, Repr

/-- A registered worker implementation (`all_modules.workers[jobtype]`): the
only attribute the manager reads when delegating is `max_workers`. -/
structure WorkerClass where
  max_workers : Nat
deriving DecidableEq, Repr

/-- `self.worker_pool`: a dict from jobtype to the list of its running
workers, rendered as an insertion-ordered association list. -/
abbrev Pool := List (String × List Worker)

def lookupPool (pool : Pool) (jobtype : String) : Option (List Worker) :=
  (pool.find? fun e => e.1 == jobtype).map Prod.snd

def poolCount (pool : Pool) (jobtype : String) : Nat :=
  ((lookupPool pool jobtype).getD []).length

/-- `if jobtype not in self.worker_pool: self.worker_pool[jobtype] = []` -/
def ensureKey (pool : Pool) (jobtype : String) : Pool :=
  if pool.any fun e => e.1 == jobtype then pool else pool ++ [(jobtype, [])]

/-- `self.worker_pool[jobtype].append(worker)` -/
def appendWorker (pool : Pool) (jobtype : String) (w : Worker) : Pool :=
  pool.map fun e => if e.1 == jobtype then (e.1, e.2 ++ [w]) else e

/-- The reconciliation pass of `WorkerManager.delegate` over one jobtype's
worker list (manager.py lines 86-102), with Python's iterator semantics made
explicit: the `for` loop walks the very list that
`self.worker_pool[jobtype].remove(worker)` mutates, so after a removal the
element that followed the removed worker is skipped in this pass (worker
objects are distinct, so `remove` takes out exactly the element at the
iterator's position).  Arguments: `A` the liveness oracle, `K` the snapshot of
known job ids, then the stopping set and the worker list.  Returns the
remaining workers, the new stopping set, and the job ids interrupted during
the pass, in order. -/
def reconcileList (A : Nat → Bool) (K : List Nat) :
    List Nat → List Worker → List Worker × List Nat × List Nat
  | s, [] => ([], s, [])
  | s, w :: rest =>
    if A w.wid then
      if w.job.id ∈ K ∨ w.job.id ∈ s then
        -- still live and either still backed by a record or already stopping
        let r := reconcileList A K s rest
        (w :: r.1, r.2.1, r.2.2)
      else
        -- job cancelled meanwhile: request an interrupt, remember it
        let r := reconcileList A K (s ++ [w.job.id]) rest
        (w :: r.1, r.2.1, w.job.id :: r.2.2)
    else
      -- finished: join, remove from the pool (and skip the next element),
      -- clear from the stopping set if it was stopped via an interrupt
      match rest with
      | [] => ([], s.erase w.job.id, [])
      | w2 :: rest2 =>
        let r := reconcileList A K (s.erase w.job.id) rest2
        (w2 :: r.1, r.2.1, r.2.2)

/-- The reconciliation pass over the whole pool dict
(`for jobtype in self.worker_pool`). -/
def reconcilePool (A : Nat → Bool) (K : List Nat) :
    Pool → List Nat → Pool × List Nat × List Nat
  | [], s => ([], s, [])
  | (jt, ws) :: rest, s =>
    let r1 := reconcileList A K s ws
    let r2 := reconcilePool A K rest r1.2.1
    ((jt, r1.1) :: r2.1, r2.2.1, r1.2.2 ++ r2.2.2)

/-- The assignment pass of `WorkerManager.delegate` (manager.py lines
107-129): walk the snapshot, skip non-claimable jobs and jobtypes without a
registered worker implementation, and when the jobtype's pool is below its
`max_workers` claim the job and append a freshly spawned worker; a lost claim
race (`JobClaimedException`) is swallowed.  Returns the store, the pool and
the next fresh worker handle. -/
def assignPass (registry : String → Option WorkerClass) (now : Nat) :
    List Job → List Job → Pool → Nat → List Job × Pool × Nat
  | [], store, pool, nw => (store, pool, nw)
  | job :: rest, store, pool, nw =>
    if isClaimable now job then
      match registry job.jobtype with
      | none => assignPass registry now rest store pool nw
      | some wc =>
        let pool1 := ensureKey pool job.jobtype
        if poolCount pool1 job.jobtype < wc.max_workers then
          match claimJob store job.id with
          | .error _ =>
            -- JobClaimedException: it's fine
            assignPass registry now rest store pool1 nw
          | .ok store1 =>
            let w : Worker := { wid := nw, job := { job with claimed := true }, appname := "" }
            assignPass registry now rest store1 (appendWorker pool1 job.jobtype w) (nw + 1)
        else
          assignPass registry now rest store pool1 nw
    else
      assignPass registry now rest store pool nw

/-- The manager state threaded between delegation ticks: the shared store,
the worker pool, the stopping set (`self.stopping_workers`) and the next
fresh worker handle. -/
structure MState where
  store : List Job
  pool : Pool
  stopping : List Nat
  nextWid : Nat

/-- `WorkerManager.delegate`: one tick of the delegation loop — snapshot the
full outstanding job set, reconcile the pool against it, then assign
claimable jobs to free worker slots.  Also returns the job ids interrupted
during the tick. -/
def delegate (registry : String → Option WorkerClass) (A : Nat → Bool)
    (now : Nat) (st : MState) : MState × List Nat :=
  let jobs := get_all_jobs st.store none none false now
  let known := jobs.map Job.id
  let rec1 := reconcilePool A known st.pool st.stopping
  let asg := assignPass registry now jobs st.store rec1.1 st.nextWid
  ({ store := asg.1, pool := asg.2.1, stopping := rec1.2.1, nextWid := asg.2.2 },
   rec1.2.2)

/-- The inputs a single tick observes from outside the manager: the store as
other processes left it, the liveness of each worker handle, and the clock. -/
structure TickInput where
  store : List Job
  alive : Nat → Bool
  now : Nat

/-- Run the delegation loop over a sequence of tick inputs, collecting every
interrupt issued. -/
def runTicks (registry : String → Option WorkerClass) :
    List TickInput → MState → MState × List Nat
  | [], st => (st, [])
  | t :: rest, st =>
    let r1 := delegate registry t.alive t.now { st with store := t.store }
    let r2 := runTicks registry rest r1.1
    (r2.1, r1.2 ++ r2.2)

/-- The outcome of `WorkerManager.abort`: an uncaught store exception, a poll
loop that never saw the cancellation jobs disappear, or completion carrying
the final store, the final value of `self.looping` and the ids of the
cancellation jobs that were claim-and-released, in order. -/
inductive AbortOutcome where
  | err (e : QueueError)
  | timeout
  | done (store : List Job) (looping : Bool) (released : List Nat)
deriving DecidableEq, Repr

/-- The body of the `for job in ...` loop of `WorkerManager.abort`
(manager.py lines 189-194), iterated over the snapshot of outstanding
cancellation jobs: `claim` then `release(delay=0, claim_after=0)` each one,
recording the claimed ids.  The `claim` exception is not caught here (unlike
in `request_interrupt`). -/
def abortPhase1Go (now : Nat) :
    List Job → List Job → List Nat → Except QueueError (List Job × List Nat)
  | [], s, acc => .ok (s, acc)
  | job :: rest, s, acc =>
    match claimJob s job.id with
    | .error e => .error e
    | .ok s1 => abortPhase1Go now rest (releaseJob s1 job.id 0 now) (acc ++ [job.id])

/-- First phase of `WorkerManager.abort`: force every outstanding
`cancel-pg-query` job immediately claimable. -/
def abortPhase1 (now : Nat) (store : List Job) :
    Except QueueError (List Job × List Nat) :=
  abortPhase1Go now (get_all_jobs store (some "cancel-pg-query") none false now) store []

/-- Second phase of `WorkerManager.abort` (manager.py lines 197-198): sleep
until no `cancel-pg-query` job remains outstanding.  `env` is what the other
processes sharing the store do during one sleep; `fuel` bounds the number of
sleeps modelled. -/
def abortPoll (env : List Job → List Job) (now : Nat) :
    Nat → List Job → Option (List Job)
  | fuel, store =>
    if (get_all_jobs store (some "cancel-pg-query") none false now).isEmpty then
      some store
    else
      match fuel with
      | 0 => none
      | fuel + 1 => abortPoll env now fuel (env store)

/-- `WorkerManager.abort`: force every outstanding cancellation job claimable,
poll until none remains, then set `self.looping = False`. -/
def abort (env : List Job → List Job) (fuel : Nat) (now : Nat)
    (store : List Job) : AbortOutcome :=
  match abortPhase1 now store with
  | .error e => .err e
  | .ok (store1, released) =>
    match abortPoll env now fuel store1 with
    | none => .timeout
    | some store2 => .done store2 false released

/-- The target test of `request_interrupt` (manager.py line 227): the worker
matches when a `Job` object was passed and the ids agree, or when the
jobtype/remote-id pair agrees (`remote_id` is `None` when not passed, and in
Python a string never equals `None`). -/
def matchesTarget (job : Option Job) (remote_id : Option String)
    (jobtype : String) (w : Worker) : Bool :=
  (match job with
   | some j => w.job.id == j.id
   | none => false) ||
  (w.job.jobtype == jobtype &&
   match remote_id with
   | some r => w.job.remote_id == r
   | none => false)

/-- The `for cancel_job in active_queries` body of `request_interrupt`
(manager.py lines 235-241): skip claimed cancellation jobs, claim-and-release
the rest. -/
def drainStep (now : Nat) : List Job → List Job → Except QueueError (List Job)
  | [], s => .ok s
  | cj :: rest, s =>
    if cj.claimed then
      drainStep now rest s
    else
      match claimJob s cj.id with
      | .error e => .error e
      | .ok s1 => drainStep now rest (releaseJob s1 cj.id 0 now)

/-- The cancellation drain of `request_interrupt` (manager.py lines 229-244):
while `cancel-pg-query` jobs for the worker's own connection remain,
claim-and-release each unclaimed one, then sleep (during which `env` acts).
`fuel` bounds the number of sleeps; `none` models a drain that never
terminates. -/
def drainCancel (appname : String) (env : List Job → List Job) (now : Nat) :
    Nat → List Job → Except QueueError (Option (List Job))
  | fuel, store =>
    let active := get_all_jobs store (some "cancel-pg-query") (some appname) false now
    if active.isEmpty then
      -- all cancellation jobs have been run
      .ok (some store)
    else
      match drainStep now active store with
      | .error e => .error e
      | .ok store1 =>
        match fuel with
        | 0 => .ok none
        | fuel + 1 => drainCancel appname env now fuel (env store1)

/-- Walk one jobtype's worker list looking for the interrupt target
(manager.py lines 226-248): the first matching worker gets the drain and the
interrupt, and the method returns at once.  Returns the store and the
`(wid, level)` deliveries made. -/
def interruptScan (env : List Job → List Job) (fuel now : Nat) (level : Nat)
    (job : Option Job) (remote_id : Option String) (jobtype : String) :
    List Worker → List Job → Except QueueError (Option (List Job × List (Nat × Nat)))
  | [], store => .ok (some (store, []))
  | w :: rest, store =>
    if matchesTarget job remote_id jobtype w then
      match drainCancel w.appname env now fuel store with
      | .error e => .error e
      | .ok none => .ok none
      | .ok (some store1) =>
        -- now all queries are interrupted, formally request an abort
        .ok (some (store1, [(w.wid, level)]))
    else
      interruptScan env fuel now level job remote_id jobtype rest store

/-- Lines 219-220 of manager.py: when a `Job` object is passed its jobtype
overrides the `jobtype` argument. -/
def jobtypeOf (job : Option Job) (jobtype : Option String) : Option String :=
  match job with
  | some j => some j.jobtype
  | none => jobtype

/-- `WorkerManager.request_interrupt`: resolve the jobtype, return silently
when no pool entry exists for it, otherwise scan that jobtype's workers for
the target. -/
def request_interrupt (env : List Job → List Job) (fuel : Nat) (pool : Pool)
    (store : List Job) (now : Nat) (level : Nat) (job : Option Job)
    (remote_id : Option String) (jobtype : Option String) :
    Except QueueError (Option (List Job × List (Nat × Nat))) :=
  match jobtypeOf job jobtype with
  | none => .ok (some (store, []))
  | some jt =>
    match lookupPool pool jt with
    | none => .ok (some (store, []))
    | some ws => interruptScan env fuel now level job remote_id jt ws store

/-- `WorkerManager.request_delete`: resolve the job (by the given object, or
by remote id and jobtype over all instances) and `finish(delete=True)` it; a
`JobNotFoundException` means it is already gone and returns silently. -/
def request_delete (store : List Job) (now : Nat) (job : Option Job)
    (remote_id jobtype : String) : List Job :=
  match job with
  | some j => finishJob store j true now
  | none =>
    match get_by_remote_ID store remote_id jobtype with
    | .error _ =>
      -- job doesn't exist - OK, may have been deleted or finished already
      store
    | .ok j => finishJob store j true now

/-- One observable step of `WorkerManager.__init__`: a call to
`queue.add_job` (the ordinary create operation) or the entry into the
delegation loop. -/
inductive StartupEvent where
  | create (jobtype remote_id inst : String) (interval : Option Nat)
  | startLoop
deriving DecidableEq, Repr

/-- `WorkerManager.__init__` (manager.py lines 50-67), as the sequence of
jobs it enqueues followed by the entry into `self.loop()`. -/
def managerInit (instance_id : String) : List StartupEvent :=
  [.create "api" instance_id instance_id none,
   .create "expire-datasets" instance_id instance_id (some 300),
   .create "datasource-metrics" instance_id instance_id (some 86400),
   .create "clean-temp-files" instance_id instance_id (some 3600),
   .startLoop]

/-- A row of the `threads` table, with the columns `BoardScraper.save_thread`
touches; columns not supplied on insert default to zero/empty. -/
structure ThreadRow where
  tid : Nat
  board : String
  index_positions : String
  timestamp_deleted : Nat
  timestamp_scraped : Nat
  timestamp_modified : Nat
deriving DecidableEq, Repr

/-- The slice of a scraped thread's JSON that `save_thread` reads; a missing
key is `none` (the `required_fields` check). -/
structure ThreadData where
  no : Option Nat
  last_modified : Option Nat
deriving DecidableEq, Repr

/-- The state `save_thread` acts on: the job queue store and the `threads`
table. -/
structure ScrapeState where
  queueStore : List Job
  threads : List ThreadRow
deriving DecidableEq, Repr

/-- The row `db.insert("threads", thread_data)` creates: only id, board and
an empty index-position log are supplied; other columns default to zero. -/
def newThreadRow (no : Nat) (board : String) : ThreadRow :=
  { tid := no, board := board, index_positions := "", timestamp_deleted := 0,
    timestamp_scraped := 0, timestamp_modified := 0 }

/-- The closing `UPDATE threads SET timestamp_scraped = ..., WHERE id = ...`
of `save_thread`, applied to one row. -/
def touchRow (loop_time position lm no : Nat) (rrow : ThreadRow) : ThreadRow :=
  if rrow.tid == no then
    { rrow with timestamp_scraped := loop_time, timestamp_modified := lm,
                index_positions := rrow.index_positions ++
                  (toString loop_time ++ ":" ++ toString position ++ ",") }
  else rrow

/-- `BoardScraper.save_thread` (scrape_boards.py lines 39-81): bail out when
a required field is missing; schedule a `thread` scrape job, swallowing
`JobAlreadyExistsException`; insert the thread row if absent; update its
timestamps and index-position log.  Returns the new state and the number of
new threads (Python returns `False`, numerically 0, on the missing-field
path).  `inst` is the instance the queue stamps on created jobs;
`loop_time` and `position` are the scraper's cycle clock and running index. -/
def save_thread (st : ScrapeState) (inst : String) (loop_time position : Nat)
    (thread : ThreadData) (job_remote_id : String) :
    Except QueueError (ScrapeState × Nat) :=
  match thread.no, thread.last_modified with
  | some no, some lm =>
    -- schedule a job for scraping the thread's posts
    let qsres : Except QueueError (List Job) :=
      match add_job st.queueStore "thread" (toString no) inst job_remote_id none with
      | .ok s => .ok s
      | .error .duplicateJob =>
        -- this might happen if the workers can't keep up with the queue
        .ok st.queueStore
      | .error e => .error e
    match qsres with
    | .error e => .error e
    | .ok qs =>
      -- add database record for thread, if none exists yet
      let row := st.threads.find? fun rrow => rrow.tid == no
      let threads1 : List ThreadRow :=
        match row with
        | none => st.threads ++ [newThreadRow no job_remote_id]
        | some _ => st.threads
      let new_thread : Nat :=
        match row with
        | none => 1
        | some _ => 0
      -- update timestamps and position
      let threads2 := threads1.map (touchRow loop_time position lm no)
      .ok ({ queueStore := qs, threads := threads2 }, new_thread)
  | _, _ =>
    -- missing required fields in scraped thread, ignoring
    .ok (st, 0)

/-! ## Basic store lemmas -/

/-- The full snapshot `get_all_jobs(restrict_claimable=False)` with no filters
is the store itself. -/
theorem get_all_jobs_full (store : List Job) (now : Nat) :
    get_all_jobs store none none false now = store := by
  simp [get_all_jobs]

/-! ## The reconciliation pass skips the element after a removal (C10) -/

/-- The elements at odd 0-based positions of a list. -/
def oddElems {α : Type _} : List α → List α
  | [] => []
  | [_] => []
  | _ :: b :: rest => b :: oddElems rest

theorem oddElems_length {α : Type _} :
    ∀ l : List α, (oddElems l).length = l.length / 2
  | [] => by simp [oddElems]
  | [_] => by simp [oddElems]
  | _ :: _ :: rest => by
    simp only [oddElems, List.length_cons, oddElems_length rest]
    omega

theorem reconcileList_all_dead (A : Nat → Bool) (K : List Nat) :
    ∀ (ws : List Worker) (s : List Nat), (∀ w ∈ ws, A w.wid = false) →
      (reconcileList A K s ws).1 = oddElems ws
  | [], _, _ => rfl
  | [w], s, h => by
    have hw : A w.wid = false := h w (by simp)
    simp [reconcileList, oddElems, hw]
  | w :: w2 :: rest, s, h => by
    have hw : A w.wid = false := h w (by simp)
    have ih := reconcileList_all_dead A K rest (s.erase w.job.id)
      (fun x hx => h x (by simp [hx]))
    simp [reconcileList, oddElems, hw, ih]

/-- C10: the reconciliation pass removes non-live workers from the very list
it iterates, so a pass over a run of non-live workers removes only every
other one: of two consecutive non-live entries only the first is removed, and
a pool of `n` non-live entries keeps `n / 2` of them. -/
theorem c10_reconcile_removal_skips (A : Nat → Bool) (K : List Nat)
    (s : List Nat) (ws : List Worker) (h : ∀ w ∈ ws, A w.wid = false) :
    (reconcileList A K s ws).1 = oddElems ws ∧
      (reconcileList A K s ws).1.length = ws.length / 2 := by
  refine ⟨reconcileList_all_dead A K ws s h, ?_⟩
  rw [reconcileList_all_dead A K ws s h, oddElems_length]

/-- Sample job and worker builders for concrete witnesses. -/
def sampleJob (i : Nat) (jt rid : String) (cl : Bool) : Job :=
  { id := i, jobtype := jt, remote_id := rid, inst := "x", details := "",
    interval := none, claimed := cl, claimAfter := 0 }

def sampleWorker (n i : Nat) (jt : String) : Worker :=
  { wid := n, job := sampleJob i jt "r" false, appname := "conn" }

theorem c10_reconcile_removal_skips_witness :
    (∀ w ∈ [sampleWorker 0 1 "board", sampleWorker 1 2 "board"],
        (fun _ => false : Nat → Bool) w.wid = false) ∧
      ((reconcileList (fun _ => false) [] []
          [sampleWorker 0 1 "board", sampleWorker 1 2 "board"]).1 =
        oddElems [sampleWorker 0 1 "board", sampleWorker 1 2 "board"] ∧
      (reconcileList (fun _ => false) [] []
          [sampleWorker 0 1 "board", sampleWorker 1 2 "board"]).1.length =
        [sampleWorker 0 1 "board", sampleWorker 1 2 "board"].length / 2) :=
  ⟨by decide, c10_reconcile_removal_skips (fun _ => false) [] [] _ (by decide)⟩

/-! ## Startup bootstrap jobs (C8) -/

/-- C8: on startup, before entering the delegation loop, the manager enqueues
through the ordinary create operation an API-serving job and recurring
dataset-expiry (300 s), datasource-metrics (86400 s) and temp-file-cleanup
(3600 s) jobs, each tagged with its own instance identifier. -/
theorem c8_startup_bootstrap (iid : String) :
    (managerInit iid).getLast? = some .startLoop ∧
    (managerInit iid).dropLast =
      [.create "api" iid iid none,
       .create "expire-datasets" iid iid (some 300),
       .create "datasource-metrics" iid iid (some 86400),
       .create "clean-temp-files" iid iid (some 3600)] :=
  ⟨rfl, rfl⟩

/-! ## Targeted delete (C4) -/

theorem finishJob_delete_not_mem (store : List Job) (j : Job) (now : Nat) :
    j.id ∉ (finishJob store j true now).map Job.id := by
  simp only [finishJob, List.mem_map]
  rintro ⟨x, hx, hid⟩
  have := (List.mem_filter.mp hx).2
  simp only [decide_eq_true_eq] at this
  exact this hid

/-- C4: a targeted delete resolves the job — by the given `Job` object or by
the `(remote_id, jobtype)` pair — and finishes it with `delete=true`, after
which that record no longer appears in the full outstanding enumeration;
when no such job exists (`NotFound`) the call returns normally with the store
untouched. -/
theorem c4_request_delete (store : List Job) (now : Nat) (r t : String) :
    (∀ j, get_by_remote_ID store r t = .ok j →
      j.id ∉ (get_all_jobs (request_delete store now none r t)
                none none false now).map Job.id) ∧
    (∀ j : Job,
      j.id ∉ (get_all_jobs (request_delete store now (some j) r t)
                none none false now).map Job.id) ∧
    (get_by_remote_ID store r t = .error .notFound →
      request_delete store now none r t = store) := by
  refine ⟨fun j hj => ?_, fun j => ?_, fun h => ?_⟩
  · rw [get_all_jobs_full]
    simp only [request_delete, hj]
    exact finishJob_delete_not_mem store j now
  · rw [get_all_jobs_full]
    simp only [request_delete]
    exact finishJob_delete_not_mem store j now
  · simp only [request_delete, h]

theorem c4_request_delete_witness :
    (get_by_remote_ID [sampleJob 7 "thread" "123" false] "123" "thread" =
        .ok (sampleJob 7 "thread" "123" false) ∧
      (sampleJob 7 "thread" "123" false).id ∉
        (get_all_jobs
          (request_delete [sampleJob 7 "thread" "123" false] 0 none "123" "thread")
          none none false 0).map Job.id) ∧
    (get_by_remote_ID ([] : List Job) "123" "thread" = .error .notFound ∧
      request_delete [] 0 none "123" "thread" = []) :=
  ⟨⟨rfl, (c4_request_delete [sampleJob 7 "thread" "123" false] 0 "123" "thread").1
      (sampleJob 7 "thread" "123" false) rfl⟩,
   ⟨rfl, (c4_request_delete [] 0 "123" "thread").2.2 rfl⟩⟩

/-! ## Duplicate-job swallowing in `save_thread` (C7) -/

/-- C7: when the follow-up `thread` job already exists (the duplicate-job
condition), `save_thread` swallows the error and continues: it returns
normally, leaves the queue unchanged, and still records/updates the thread
row (scrape timestamp, modification timestamp) in the database. -/
theorem c7_save_thread_swallows_duplicate (st : ScrapeState) (inst : String)
    (loop_time position no lm : Nat) (jrid : String)
    (hdup : st.queueStore.any (fun j =>
        j.jobtype == "thread" && j.remote_id == toString no &&
        j.inst == inst && !j.claimed) = true) :
    ∃ st1 cnt,
      save_thread st inst loop_time position ⟨some no, some lm⟩ jrid = .ok (st1, cnt) ∧
      st1.queueStore = st.queueStore ∧
      ∃ rrow ∈ st1.threads, rrow.tid = no ∧
        rrow.timestamp_scraped = loop_time ∧ rrow.timestamp_modified = lm := by
  have hadd : add_job st.queueStore "thread" (toString no) inst jrid none =
      .error .duplicateJob := by
    simp only [add_job, hdup, if_true]
  have hres : save_thread st inst loop_time position ⟨some no, some lm⟩ jrid =
      .ok ({ queueStore := st.queueStore,
             threads :=
               (match st.threads.find? (fun rrow : ThreadRow => rrow.tid == no) with
                | none => st.threads ++ [newThreadRow no jrid]
                | some _ => st.threads).map (touchRow loop_time position lm no) },
            match st.threads.find? (fun rrow : ThreadRow => rrow.tid == no) with
            | none => 1
            | some _ => 0) := by
    simp only [save_thread, hadd]
  refine ⟨_, _, hres, rfl, ?_⟩
  cases hrow : st.threads.find? (fun rrow => rrow.tid == no) with
  | none =>
    refine ⟨touchRow loop_time position lm no (newThreadRow no jrid), ?_, ?_, ?_, ?_⟩
    · simp only [hrow, List.map_append, List.mem_append]
      right
      simp
    · simp [touchRow, newThreadRow]
    · simp [touchRow, newThreadRow]
    · simp [touchRow, newThreadRow]
  | some r0 =>
    have hr0mem : r0 ∈ st.threads := List.mem_of_find?_eq_some hrow
    have hr0tid := List.find?_some hrow
    refine ⟨touchRow loop_time position lm no r0, ?_, ?_, ?_, ?_⟩
    · simp only [hrow]
      exact List.mem_map_of_mem (touchRow loop_time position lm no) hr0mem
    · simp only [touchRow, hr0tid, if_true]
      simpa using hr0tid
    · simp [touchRow, hr0tid]
    · simp [touchRow, hr0tid]

theorem c7_save_thread_swallows_duplicate_witness :
    ((({ queueStore := [sampleJob 1 "thread" "42" false], threads := [] } :
        ScrapeState).queueStore.any (fun j =>
        j.jobtype == "thread" && j.remote_id == toString 42 &&
        j.inst == "x" && !j.claimed) = true) ∧
      ∃ st1 cnt,
        save_thread { queueStore := [sampleJob 1 "thread" "42" false], threads := [] }
            "x" 9 3 ⟨some 42, some 5⟩ "b" = .ok (st1, cnt) ∧
        st1.queueStore =
          ({ queueStore := [sampleJob 1 "thread" "42" false], threads := [] } :
            ScrapeState).queueStore ∧
        ∃ rrow ∈ st1.threads, rrow.tid = 42 ∧
          rrow.timestamp_scraped = 9 ∧ rrow.timestamp_modified = 5) :=
  ⟨by decide,
   c7_save_thread_swallows_duplicate
     { queueStore := [sampleJob 1 "thread" "42" false], threads := [] }
     "x" 9 3 42 5 "b" (by decide)⟩

/-! ## Graceful stop (C3, C6) -/

theorem mem_of_mem_get_all_jobs {store : List Job} {jt rid : Option String}
    {rc : Bool} {now : Nat} {j : Job}
    (h : j ∈ get_all_jobs store jt rid rc now) : j ∈ store :=
  (List.mem_filter.mp h).1

/-- With `restrict_claimable=False` the enumeration does not consult the
clock. -/
theorem get_all_jobs_false_now (store : List Job) (jt rid : Option String)
    (n1 n2 : Nat) :
    get_all_jobs store jt rid false n1 = get_all_jobs store jt rid false n2 := by
  simp [get_all_jobs]

/-- The net effect on the store of `claim` followed by
`release(delay=0, claim_after=0)` on the record with id `i`. -/
def forceClaimable (s : List Job) (i now : Nat) : List Job :=
  s.map fun j => if j.id == i then { j with claimed := false, claimAfter := now } else j

theorem claimJob_ok_of_witness {s : List Job} {i : Nat}
    (h : ∃ x ∈ s, x.id = i ∧ x.claimed = false) :
    claimJob s i =
      .ok (s.map fun j => if j.id == i then { j with claimed := true } else j) := by
  obtain ⟨x, hx, hid, hcl⟩ := h
  have hany : s.any (fun j => j.id == i && !j.claimed) = true :=
    List.any_eq_true.mpr ⟨x, hx, by simp [hid, hcl]⟩
  simp [claimJob, hany]

theorem claim_then_release (s : List Job) (i now : Nat) :
    releaseJob (s.map fun j => if j.id == i then { j with claimed := true } else j) i 0 now
      = forceClaimable s i now := by
  simp only [releaseJob, forceClaimable, List.map_map]
  apply List.map_congr_left
  intro x _
  by_cases h : (x.id == i) = true
  · simp [Function.comp, h]
  · simp [Function.comp, h]

theorem forceClaimable_witness {s : List Job} {x : Job} (hx : x ∈ s)
    (hcl : x.claimed = false) (i now : Nat) :
    ∃ y ∈ forceClaimable s i now, y.id = x.id ∧ y.claimed = false := by
  refine ⟨if x.id == i then { x with claimed := false, claimAfter := now } else x,
    List.mem_map_of_mem _ hx, ?_⟩
  by_cases h : (x.id == i) = true <;> simp [h, hcl]

theorem abortPhase1Go_ok (now : Nat) :
    ∀ (l s : List Job) (acc : List Nat),
      (∀ j ∈ l, ∃ x ∈ s, x.id = j.id ∧ x.claimed = false) →
      ∃ s1, abortPhase1Go now l s acc = .ok (s1, acc ++ l.map Job.id)
  | [], s, acc, _ => ⟨s, by simp [abortPhase1Go]⟩
  | job :: rest, s, acc, h => by
    have hclaim := claimJob_ok_of_witness (h job (by simp))
    have hrest : ∀ j ∈ rest,
        ∃ x ∈ forceClaimable s job.id now, x.id = j.id ∧ x.claimed = false := by
      intro j hjr
      obtain ⟨x, hx, hid, hcl⟩ := h j (by simp [hjr])
      obtain ⟨y, hy, hyid, hycl⟩ := forceClaimable_witness hx hcl job.id now
      exact ⟨y, hy, by rw [hyid, hid], hycl⟩
    obtain ⟨s1, hs1⟩ :=
      abortPhase1Go_ok now rest (forceClaimable s job.id now) (acc ++ [job.id]) hrest
    refine ⟨s1, ?_⟩
    simp only [abortPhase1Go, hclaim, claim_then_release, hs1]
    simp

theorem abortPoll_some_empty (env : List Job → List Job) (now : Nat) :
    ∀ (fuel : Nat) (s s2 : List Job), abortPoll env now fuel s = some s2 →
      get_all_jobs s2 (some "cancel-pg-query") none false now = []
  | fuel, s, s2, h => by
    rw [abortPoll.eq_def] at h
    dsimp only at h
    by_cases he : (get_all_jobs s (some "cancel-pg-query") none false now).isEmpty = true
    · rw [if_pos he] at h
      cases h
      exact List.isEmpty_iff.mp he
    · rw [if_neg he] at h
      cases fuel with
      | zero => cases h
      | succ f => exact abortPoll_some_empty env now f (env s) s2 h

/-- C3 counterexample: on a store whose only cancellation job is currently
claimed, `abort` raises the uncaught claim exception instead of
claim-and-releasing every outstanding cancellation job and flipping the stop
flag — so the claimed behaviour does not hold for every initial store
state. -/
theorem c3_abort_counterexample :
    abort (fun s => s) 5 0 [sampleJob 3 "cancel-pg-query" "worker-7" true] =
      .err .alreadyClaimed := by decide

/-- C3 (amended): for every initial store state in which no outstanding
cancellation job is currently claimed, `abort` claims and then releases
(with delay 0 and claim-after 0) every outstanding `cancel-pg-query` job, in
enumeration order; it never raises; and whenever it completes, the stop flag
is false, and at that moment no cancellation job remains outstanding. -/
theorem c3_abort_drains_then_stops (env : List Job → List Job)
    (fuel now : Nat) (store : List Job)
    (h : ∀ j ∈ get_all_jobs store (some "cancel-pg-query") none false now,
      j.claimed = false) :
    (∀ e, abort env fuel now store ≠ .err e) ∧
    (∀ store2 l rel, abort env fuel now store = .done store2 l rel →
      l = false ∧
      get_all_jobs store2 (some "cancel-pg-query") none false now = [] ∧
      rel = (get_all_jobs store (some "cancel-pg-query") none false now).map Job.id) := by
  have hwit : ∀ j ∈ get_all_jobs store (some "cancel-pg-query") none false now,
      ∃ x ∈ store, x.id = j.id ∧ x.claimed = false :=
    fun j hj => ⟨j, mem_of_mem_get_all_jobs hj, rfl, h j hj⟩
  obtain ⟨s1, hs1⟩ := abortPhase1Go_ok now
    (get_all_jobs store (some "cancel-pg-query") none false now) store [] hwit
  have hp1 : abortPhase1 now store =
      .ok (s1, (get_all_jobs store (some "cancel-pg-query") none false now).map Job.id) := by
    rw [abortPhase1, hs1]
    simp
  constructor
  · intro e
    simp only [abort, hp1]
    cases hpoll : abortPoll env now fuel s1 <;> simp
  · intro store2 l rel habort
    simp only [abort, hp1] at habort
    cases hpoll : abortPoll env now fuel s1 with
    | none => rw [hpoll] at habort; cases habort
    | some s2 =>
      rw [hpoll] at habort
      cases habort
      exact ⟨rfl, abortPoll_some_empty env now fuel s1 _ hpoll, rfl⟩

/-- The environment used in witnesses: between two polls, the persistence
layer executes (hence deletes) every claimable cancellation job. -/
def envDel (s : List Job) : List Job :=
  s.filter fun j => !(j.jobtype == "cancel-pg-query" && !j.claimed)

theorem c3_abort_drains_then_stops_witness :
    (∀ j ∈ get_all_jobs [sampleJob 3 "cancel-pg-query" "worker-7" false]
        (some "cancel-pg-query") none false 0, j.claimed = false) ∧
    ((∀ e, abort envDel 2 0 [sampleJob 3 "cancel-pg-query" "worker-7" false] ≠ .err e) ∧
     (∀ store2 l rel,
        abort envDel 2 0 [sampleJob 3 "cancel-pg-query" "worker-7" false] =
          .done store2 l rel →
        l = false ∧
        get_all_jobs store2 (some "cancel-pg-query") none false 0 = [] ∧
        rel = (get_all_jobs [sampleJob 3 "cancel-pg-query" "worker-7" false]
                (some "cancel-pg-query") none false 0).map Job.id)) :=
  ⟨by decide,
   c3_abort_drains_then_stops envDel 2 0
     [sampleJob 3 "cancel-pg-query" "worker-7" false] (by decide)⟩

/-- C6: a second graceful stop right after a completed one does not error and
claim-and-releases no cancellation job a second time: the first completed
stop leaves the flag false with no outstanding cancellation job, and the
second returns at once with the same store, the flag still false, and an
empty list of cancelled connections. -/
theorem c6_abort_idempotent (env env2 : List Job → List Job)
    (fuel fuel2 now now2 : Nat) (store store2 : List Job) (l : Bool)
    (rel : List Nat)
    (h : abort env fuel now store = .done store2 l rel) :
    l = false ∧ abort env2 fuel2 now2 store2 = .done store2 false [] := by
  unfold abort at h
  cases hp : abortPhase1 now store with
  | error e => rw [hp] at h; cases h
  | ok p =>
    obtain ⟨ps, pr⟩ := p
    rw [hp] at h
    dsimp only at h
    cases hpoll : abortPoll env now fuel ps with
    | none => rw [hpoll] at h; cases h
    | some s2 =>
      rw [hpoll] at h
      cases h
      have hempty : get_all_jobs store2 (some "cancel-pg-query") none false now = [] :=
        abortPoll_some_empty env now fuel ps store2 hpoll
      have hempty2 : get_all_jobs store2 (some "cancel-pg-query") none false now2 = [] := by
        rw [get_all_jobs_false_now store2 (some "cancel-pg-query") none now2 now, hempty]
      refine ⟨rfl, ?_⟩
      have hp2 : abortPhase1 now2 store2 = .ok (store2, []) := by
        rw [abortPhase1, hempty2]
        simp [abortPhase1Go]
      have hpoll2 : abortPoll env2 now2 fuel2 store2 = some store2 := by
        rw [abortPoll.eq_def]
        dsimp only
        rw [hempty2]
        simp
      simp [abort, hp2, hpoll2]

theorem c6_abort_idempotent_witness :
    abort envDel 2 0 [sampleJob 3 "cancel-pg-query" "worker-7" false] =
        .done [] false [3] ∧
      (false = false ∧ abort envDel 2 1 [] = .done [] false []) :=
  ⟨by decide,
   c6_abort_idempotent envDel envDel 2 2 0 1
     [sampleJob 3 "cancel-pg-query" "worker-7" false] [] false [3] (by decide)⟩

/-! ## Targeted interrupt (C5, C9) -/

theorem drainCancel_some_empty (appname : String) (env : List Job → List Job)
    (now : Nat) :
    ∀ (fuel : Nat) (store s1 : List Job),
      drainCancel appname env now fuel store = .ok (some s1) →
      get_all_jobs s1 (some "cancel-pg-query") (some appname) false now = []
  | fuel, store, s1, h => by
    rw [drainCancel.eq_def] at h
    dsimp only at h
    by_cases he : (get_all_jobs store (some "cancel-pg-query")
        (some appname) false now).isEmpty = true
    · rw [if_pos he] at h
      cases h
      exact List.isEmpty_iff.mp he
    · rw [if_neg he] at h
      cases hds : drainStep now
          (get_all_jobs store (some "cancel-pg-query") (some appname) false now)
          store with
      | error e => rw [hds] at h; cases h
      | ok store1 =>
        rw [hds] at h
        cases fuel with
        | zero => cases h
        | succ f => exact drainCancel_some_empty appname env now f (env store1) s1 h

theorem interruptScan_no_match (env : List Job → List Job) (fuel now level : Nat)
    (job : Option Job) (rid : Option String) (jt : String) :
    ∀ (ws : List Worker) (store : List Job),
      (∀ w ∈ ws, matchesTarget job rid jt w = false) →
      interruptScan env fuel now level job rid jt ws store = .ok (some (store, []))
  | [], store, _ => by simp [interruptScan]
  | w :: rest, store, h => by
    have hw : matchesTarget job rid jt w = false := h w (by simp)
    rw [interruptScan.eq_def]
    simp only [hw]
    exact interruptScan_no_match env fuel now level job rid jt rest store
      (fun x hx => h x (by simp [hx]))

theorem interruptScan_ok (env : List Job → List Job) (fuel now level : Nat)
    (job : Option Job) (rid : Option String) (jt : String) :
    ∀ (ws : List Worker) (store st2 : List Job) (ds : List (Nat × Nat)),
      interruptScan env fuel now level job rid jt ws store = .ok (some (st2, ds)) →
      (match ws.find? (matchesTarget job rid jt) with
       | none => st2 = store ∧ ds = []
       | some w => ds = [(w.wid, level)] ∧
          drainCancel w.appname env now fuel store = .ok (some st2))
  | [], store, st2, ds, h => by
    rw [interruptScan.eq_def] at h
    cases h
    simp
  | w :: rest, store, st2, ds, h => by
    rw [interruptScan.eq_def] at h
    dsimp only at h
    cases hm : matchesTarget job rid jt w with
    | true =>
      rw [hm] at h
      simp only [if_true] at h
      rw [List.find?_cons_of_pos _ hm]
      cases hd : drainCancel w.appname env now fuel store with
      | error e => rw [hd] at h; cases h
      | ok o =>
        rw [hd] at h
        cases o with
        | none => dsimp only at h; cases h
        | some store1 => dsimp only at h; cases h; exact ⟨rfl, hd⟩
    | false =>
      rw [hm] at h
      simp only [Bool.false_eq_true, if_false] at h
      rw [List.find?_cons_of_neg _ (by simp [hm])]
      exact interruptScan_ok env fuel now level job rid jt rest store st2 ds h

/-- C9: `request_interrupt` delivers the interrupt to at most one worker: the
first pool entry (in pool order) matching the identified job receives it and
the call returns at once, so further matching entries receive nothing. -/
theorem c9_interrupt_first_match_only (env : List Job → List Job)
    (fuel : Nat) (pool : Pool) (store : List Job) (now level : Nat)
    (job : Option Job) (rid jt : Option String) (st2 : List Job)
    (ds : List (Nat × Nat))
    (h : request_interrupt env fuel pool store now level job rid jt =
      .ok (some (st2, ds))) :
    ds.length ≤ 1 ∧
    (∀ jt1 ws, jobtypeOf job jt = some jt1 → lookupPool pool jt1 = some ws →
      ds = ((ws.find? (matchesTarget job rid jt1)).map
        (fun w => (w.wid, level))).toList) := by
  unfold request_interrupt at h
  cases hjt : jobtypeOf job jt with
  | none =>
    rw [hjt] at h
    cases h
    exact ⟨by simp, fun jt1 ws hj _ => by cases hj⟩
  | some jt1 =>
    rw [hjt] at h
    dsimp only at h
    cases hlp : lookupPool pool jt1 with
    | none =>
      rw [hlp] at h
      cases h
      refine ⟨by simp, fun jt2 ws2 hj hl => ?_⟩
      cases hj
      rw [hlp] at hl
      cases hl
    | some ws =>
      rw [hlp] at h
      dsimp only at h
      have hscan := interruptScan_ok env fuel now level job rid jt1 ws store st2 ds h
      cases hf : ws.find? (matchesTarget job rid jt1) with
      | none =>
        rw [hf] at hscan
        refine ⟨by simp [hscan.2], fun jt2 ws2 hj hl => ?_⟩
        cases hj
        rw [hlp] at hl
        cases hl
        simp [hf, hscan.2]
      | some w =>
        rw [hf] at hscan
        refine ⟨by simp [hscan.1], fun jt2 ws2 hj hl => ?_⟩
        cases hj
        rw [hlp] at hl
        cases hl
        simp [hf, hscan.1]

/-- C5: `request_interrupt` is a pure no-op when no pool entry matches the
identified job; when one does, the first matching worker receives the
interrupt with the requested severity, and only after every outstanding
`cancel-pg-query` job scoped to that worker's own connection identity has
been drained away. -/
theorem c5_interrupt_noop_or_drains (env : List Job → List Job) (fuel : Nat)
    (pool : Pool) (store : List Job) (now level : Nat) (job : Option Job)
    (rid jt : Option String) :
    ((∀ jt1 ws, jobtypeOf job jt = some jt1 → lookupPool pool jt1 = some ws →
        ∀ w ∈ ws, matchesTarget job rid jt1 w = false) →
      request_interrupt env fuel pool store now level job rid jt =
        .ok (some (store, []))) ∧
    (∀ st2 wd lv, request_interrupt env fuel pool store now level job rid jt =
        .ok (some (st2, [(wd, lv)])) →
      lv = level ∧
      ∃ jt1 ws w, jobtypeOf job jt = some jt1 ∧ lookupPool pool jt1 = some ws ∧
        w ∈ ws ∧ matchesTarget job rid jt1 w = true ∧ w.wid = wd ∧
        get_all_jobs st2 (some "cancel-pg-query") (some w.appname) false now = []) := by
  constructor
  · intro hno
    unfold request_interrupt
    cases hjt : jobtypeOf job jt with
    | none => rfl
    | some jt1 =>
      dsimp only
      cases hlp : lookupPool pool jt1 with
      | none => rfl
      | some ws =>
        dsimp only
        exact interruptScan_no_match env fuel now level job rid jt1 ws store
          (hno jt1 ws hjt hlp)
  · intro st2 wd lv h
    unfold request_interrupt at h
    cases hjt : jobtypeOf job jt with
    | none => rw [hjt] at h; cases h
    | some jt1 =>
      rw [hjt] at h
      dsimp only at h
      cases hlp : lookupPool pool jt1 with
      | none => rw [hlp] at h; cases h
      | some ws =>
        rw [hlp] at h
        dsimp only at h
        have hscan := interruptScan_ok env fuel now level job rid jt1 ws store st2 _ h
        cases hf : ws.find? (matchesTarget job rid jt1) with
        | none =>
          rw [hf] at hscan
          cases hscan.2
        | some w =>
          rw [hf] at hscan
          obtain ⟨hds, hdrain⟩ := hscan
          have hpair : wd = w.wid ∧ lv = level := by simpa using hds
          refine ⟨hpair.2, jt1, ws, w, rfl, hlp,
            List.mem_of_find?_eq_some hf, List.find?_some hf, hpair.1.symm, ?_⟩
          exact drainCancel_some_empty w.appname env now fuel store st2 hdrain

theorem c9_interrupt_first_match_only_witness :
    request_interrupt envDel 0 [("board", [sampleWorker 5 9 "board"])] [] 0 2
        none (some "r") (some "board") = .ok (some ([], [(5, 2)])) ∧
    (([((5 : Nat), (2 : Nat))].length ≤ 1) ∧
      (∀ jt1 ws, jobtypeOf none (some "board") = some jt1 →
        lookupPool [("board", [sampleWorker 5 9 "board"])] jt1 = some ws →
        [((5 : Nat), (2 : Nat))] =
          ((ws.find? (matchesTarget none (some "r") jt1)).map
            (fun w => (w.wid, 2))).toList)) :=
  ⟨rfl,
   c9_interrupt_first_match_only envDel 0 [("board", [sampleWorker 5 9 "board"])]
     [] 0 2 none (some "r") (some "board") [] [(5, 2)] rfl⟩

theorem c5_interrupt_noop_or_drains_witness :
    (request_interrupt envDel 0 [("board", [sampleWorker 1 4 "board"])] [] 0 1
        none (some "zzz") (some "board") = .ok (some ([], []))) ∧
    ((1 : Nat) = 1 ∧
      ∃ jt1 ws w, jobtypeOf none (some "board") = some jt1 ∧
        lookupPool [("board", [sampleWorker 5 9 "board"])] jt1 = some ws ∧
        w ∈ ws ∧ matchesTarget none (some "r") jt1 w = true ∧ w.wid = 5 ∧
        get_all_jobs [] (some "cancel-pg-query") (some w.appname) false 0 = []) :=
  ⟨(c5_interrupt_noop_or_drains envDel 0 [("board", [sampleWorker 1 4 "board"])]
      [] 0 1 none (some "zzz") (some "board")).1
     (fun jt1 ws hj hl => by
        cases hj
        rw [show lookupPool [("board", [sampleWorker 1 4 "board"])] "board" =
          some [sampleWorker 1 4 "board"] from rfl] at hl
        cases hl
        decide),
   (c5_interrupt_noop_or_drains envDel 0 [("board", [sampleWorker 5 9 "board"])]
      [] 0 1 none (some "r") (some "board")).2 [] 5 1 rfl⟩

/-! ## Unfolding equations for the pool structure -/

theorem lookupPool_nil (jt : String) : lookupPool [] jt = none := rfl

theorem lookupPool_cons (e : String × List Worker) (rest : Pool) (jt : String) :
    lookupPool (e :: rest) jt =
      if e.1 == jt then some e.2 else lookupPool rest jt := by
  unfold lookupPool
  by_cases he : (e.1 == jt) = true
  · rw [List.find?_cons_of_pos (p := fun x : String × List Worker => x.1 == jt) _ he, if_pos he]
    rfl
  · rw [List.find?_cons_of_neg (p := fun x : String × List Worker => x.1 == jt) _ (by simpa using he), if_neg he]

theorem lookupPool_append (b : String) : ∀ p q : Pool,
    lookupPool (p ++ q) b =
      (match lookupPool p b with
       | some ws => some ws
       | none => lookupPool q b)
  | [], q => rfl
  | e :: rest, q => by
    rw [List.cons_append, lookupPool_cons, lookupPool_cons]
    by_cases he : (e.1 == b) = true
    · rw [if_pos he, if_pos he]
    · rw [if_neg he, if_neg he]
      exact lookupPool_append b rest q

theorem hasKey_of_lookup {p : Pool} {a : String} {ws : List Worker}
    (h : lookupPool p a = some ws) : (p.any fun e => e.1 == a) = true := by
  unfold lookupPool at h
  cases hf : p.find? (fun e => e.1 == a) with
  | none => rw [hf] at h; cases h
  | some x =>
    have hx := List.find?_some hf
    exact List.any_eq_true.mpr ⟨x, List.mem_of_find?_eq_some hf, hx⟩

theorem lookup_none_of_not_hasKey {p : Pool} {a : String}
    (h : ¬(p.any fun e => e.1 == a) = true) : lookupPool p a = none := by
  unfold lookupPool
  cases hf : p.find? (fun e => e.1 == a) with
  | none => rfl
  | some x =>
    have hx := List.find?_some hf
    exact absurd (List.any_eq_true.mpr ⟨x, List.mem_of_find?_eq_some hf, hx⟩) h

theorem lookupPool_ensureKey_self (p : Pool) (a : String) :
    lookupPool (ensureKey p a) a = some ((lookupPool p a).getD []) := by
  unfold ensureKey
  by_cases hk : (p.any fun e => e.1 == a) = true
  · rw [if_pos hk]
    obtain ⟨x, hmem, hx⟩ := List.any_eq_true.mp hk
    unfold lookupPool
    cases hf : p.find? (fun e => e.1 == a) with
    | none => exact absurd hx (List.find?_eq_none.mp hf x hmem)
    | some y => rfl
  · rw [if_neg hk, lookupPool_append, lookup_none_of_not_hasKey hk]
    rw [lookupPool_cons, if_pos (by simp)]
    rfl

theorem lookupPool_ensureKey_ne (p : Pool) (a b : String) (hba : b ≠ a) :
    lookupPool (ensureKey p a) b = lookupPool p b := by
  unfold ensureKey
  by_cases hk : (p.any fun e => e.1 == a) = true
  · rw [if_pos hk]
  · rw [if_neg hk, lookupPool_append]
    cases hf : lookupPool p b with
    | some ws => rfl
    | none =>
      dsimp only
      rw [lookupPool_cons, if_neg (by simpa using fun h => hba h.symm), lookupPool_nil]

theorem poolCount_ensureKey (p : Pool) (a b : String) :
    poolCount (ensureKey p a) b = poolCount p b := by
  unfold poolCount
  by_cases hba : b = a
  · subst hba
    rw [lookupPool_ensureKey_self]
    cases lookupPool p b <;> rfl
  · rw [lookupPool_ensureKey_ne p a b hba]

theorem appendWorker_nil (a : String) (w : Worker) : appendWorker [] a w = [] := rfl

theorem appendWorker_cons (e : String × List Worker) (rest : Pool) (a : String)
    (w : Worker) :
    appendWorker (e :: rest) a w =
      (if e.1 == a then (e.1, e.2 ++ [w]) else e) :: appendWorker rest a w := rfl

theorem lookupPool_appendWorker_self (a : String) (w : Worker) :
    ∀ (p : Pool) (ws : List Worker), lookupPool p a = some ws →
      lookupPool (appendWorker p a w) a = some (ws ++ [w])
  | [], ws, h => by rw [lookupPool_nil] at h; cases h
  | e :: rest, ws, h => by
    rw [lookupPool_cons] at h
    rw [appendWorker_cons]
    by_cases he : (e.1 == a) = true
    · rw [if_pos he] at h ⊢
      cases h
      rw [lookupPool_cons]
      dsimp only
      rw [if_pos he]
    · rw [if_neg he] at h ⊢
      rw [lookupPool_cons, if_neg he]
      exact lookupPool_appendWorker_self a w rest ws h

theorem lookupPool_appendWorker_ne (a b : String) (w : Worker) (hba : b ≠ a) :
    ∀ p : Pool, lookupPool (appendWorker p a w) b = lookupPool p b
  | [] => rfl
  | e :: rest => by
    rw [appendWorker_cons, lookupPool_cons, lookupPool_cons]
    by_cases he : (e.1 == a) = true
    · have hea : e.1 = a := by simpa using he
      have heb : (e.1 == b) = false := by
        rw [hea]
        simpa using fun h => hba h.symm
      rw [if_pos he]
      dsimp only
      rw [heb, if_neg (by simp), if_neg (by simp [heb])]
      exact lookupPool_appendWorker_ne a b w hba rest
    · rw [if_neg he]
      by_cases heb : (e.1 == b) = true
      · rw [if_pos heb, if_pos heb]
      · rw [if_neg heb, if_neg heb]
        exact lookupPool_appendWorker_ne a b w hba rest

theorem poolCount_appendWorker_ensure_self (p : Pool) (a : String) (w : Worker) :
    poolCount (appendWorker (ensureKey p a) a w) a = poolCount p a + 1 := by
  unfold poolCount
  rw [lookupPool_appendWorker_self a w (ensureKey p a) _ (lookupPool_ensureKey_self p a)]
  cases lookupPool p a <;> simp

theorem poolCount_appendWorker_ensure_ne (p : Pool) (a b : String) (w : Worker)
    (hba : b ≠ a) :
    poolCount (appendWorker (ensureKey p a) a w) b = poolCount p b := by
  unfold poolCount
  rw [lookupPool_appendWorker_ne a b w hba, lookupPool_ensureKey_ne p a b hba]

/-! ## Unfolding equations for the reconciliation pass -/

theorem reconcileList_nil (A : Nat → Bool) (K s : List Nat) :
    reconcileList A K s [] = ([], s, []) := rfl

theorem reconcileList_alive_old (A : Nat → Bool) (K s : List Nat) (w : Worker)
    (rest : List Worker) (hw : A w.wid = true) (hc : w.job.id ∈ K ∨ w.job.id ∈ s) :
    reconcileList A K s (w :: rest) =
      (w :: (reconcileList A K s rest).1, (reconcileList A K s rest).2.1,
        (reconcileList A K s rest).2.2) := by
  rw [reconcileList.eq_def]
  dsimp only
  rw [if_pos hw, if_pos hc]

theorem reconcileList_alive_new (A : Nat → Bool) (K s : List Nat) (w : Worker)
    (rest : List Worker) (hw : A w.wid = true)
    (hc : ¬(w.job.id ∈ K ∨ w.job.id ∈ s)) :
    reconcileList A K s (w :: rest) =
      (w :: (reconcileList A K (s ++ [w.job.id]) rest).1,
        (reconcileList A K (s ++ [w.job.id]) rest).2.1,
        w.job.id :: (reconcileList A K (s ++ [w.job.id]) rest).2.2) := by
  rw [reconcileList.eq_def]
  dsimp only
  rw [if_pos hw, if_neg hc]

theorem reconcileList_dead_nil (A : Nat → Bool) (K s : List Nat) (w : Worker)
    (hw : A w.wid = false) :
    reconcileList A K s [w] = ([], s.erase w.job.id, []) := by
  rw [reconcileList.eq_def]
  dsimp only
  rw [if_neg (by simp [hw])]

theorem reconcileList_dead_cons (A : Nat → Bool) (K s : List Nat) (w w2 : Worker)
    (rest2 : List Worker) (hw : A w.wid = false) :
    reconcileList A K s (w :: w2 :: rest2) =
      (w2 :: (reconcileList A K (s.erase w.job.id) rest2).1,
        (reconcileList A K (s.erase w.job.id) rest2).2.1,
        (reconcileList A K (s.erase w.job.id) rest2).2.2) := by
  rw [reconcileList.eq_def]
  dsimp only
  rw [if_neg (by simp [hw])]

theorem reconcilePool_nil (A : Nat → Bool) (K : List Nat) (s : List Nat) :
    reconcilePool A K [] s = ([], s, []) := rfl

theorem reconcilePool_cons (A : Nat → Bool) (K : List Nat) (jt0 : String)
    (ws0 : List Worker) (rest : Pool) (s : List Nat) :
    reconcilePool A K ((jt0, ws0) :: rest) s =
      ((jt0, (reconcileList A K s ws0).1) ::
          (reconcilePool A K rest (reconcileList A K s ws0).2.1).1,
        (reconcilePool A K rest (reconcileList A K s ws0).2.1).2.1,
        (reconcileList A K s ws0).2.2 ++
          (reconcilePool A K rest (reconcileList A K s ws0).2.1).2.2) := rfl

/-! ## Capacity bounds of the assignment pass (C2) -/

theorem reconcileList_length_le (A : Nat → Bool) (K : List Nat) :
    ∀ (ws : List Worker) (s : List Nat),
      (reconcileList A K s ws).1.length ≤ ws.length
  | [], s => by rw [reconcileList_nil]
  | [w], s => by
    by_cases hw : A w.wid = true
    · by_cases hc : w.job.id ∈ K ∨ w.job.id ∈ s
      · rw [reconcileList_alive_old A K s w [] hw hc]
        simpa using reconcileList_length_le A K [] s
      · rw [reconcileList_alive_new A K s w [] hw hc]
        simpa using reconcileList_length_le A K [] (s ++ [w.job.id])
    · rw [reconcileList_dead_nil A K s w (by simpa using hw)]
      simp
  | w :: w2 :: rest2, s => by
    by_cases hw : A w.wid = true
    · by_cases hc : w.job.id ∈ K ∨ w.job.id ∈ s
      · rw [reconcileList_alive_old A K s w (w2 :: rest2) hw hc]
        simpa using reconcileList_length_le A K (w2 :: rest2) s
      · rw [reconcileList_alive_new A K s w (w2 :: rest2) hw hc]
        simpa using reconcileList_length_le A K (w2 :: rest2) (s ++ [w.job.id])
    · rw [reconcileList_dead_cons A K s w w2 rest2 (by simpa using hw)]
      have := reconcileList_length_le A K rest2 (s.erase w.job.id)
      simp only [List.length_cons]
      omega

theorem reconcileList_all_alive (A : Nat → Bool) (K : List Nat) :
    ∀ (ws : List Worker) (s : List Nat), (∀ w ∈ ws, A w.wid = true) →
      (reconcileList A K s ws).1 = ws
  | [], s, _ => by rw [reconcileList_nil]
  | w :: rest, s, h => by
    have hw : A w.wid = true := h w (by simp)
    have htail : ∀ x ∈ rest, A x.wid = true := fun x hx => h x (by simp [hx])
    by_cases hc : w.job.id ∈ K ∨ w.job.id ∈ s
    · rw [reconcileList_alive_old A K s w rest hw hc]
      rw [reconcileList_all_alive A K rest s htail]
    · rw [reconcileList_alive_new A K s w rest hw hc]
      rw [reconcileList_all_alive A K rest (s ++ [w.job.id]) htail]

theorem reconcilePool_count_le (A : Nat → Bool) (K : List Nat) :
    ∀ (p : Pool) (s : List Nat) (jt : String),
      poolCount (reconcilePool A K p s).1 jt ≤ poolCount p jt
  | [], s, jt => by rw [reconcilePool_nil]
  | (jt0, ws0) :: rest, s, jt => by
    rw [reconcilePool_cons]
    unfold poolCount
    rw [lookupPool_cons, lookupPool_cons]
    dsimp only
    by_cases he : (jt0 == jt) = true
    · rw [if_pos he, if_pos he]
      simpa using reconcileList_length_le A K ws0 s
    · rw [if_neg he, if_neg he]
      exact reconcilePool_count_le A K rest (reconcileList A K s ws0).2.1 jt

theorem reconcilePool_lookup_alive (A : Nat → Bool) (K : List Nat) :
    ∀ (p : Pool) (s : List Nat) (jt : String) (ws : List Worker),
      lookupPool p jt = some ws → (∀ w ∈ ws, A w.wid = true) →
      lookupPool (reconcilePool A K p s).1 jt = some ws
  | [], s, jt, ws, h, _ => by rw [lookupPool_nil] at h; cases h
  | (jt0, ws0) :: rest, s, jt, ws, h, ha => by
    rw [lookupPool_cons] at h
    rw [reconcilePool_cons, lookupPool_cons]
    dsimp only at h ⊢
    by_cases he : (jt0 == jt) = true
    · rw [if_pos he] at h ⊢
      cases h
      rw [reconcileList_all_alive A K ws0 s ha]
    · rw [if_neg he] at h ⊢
      exact reconcilePool_lookup_alive A K rest (reconcileList A K s ws0).2.1 jt ws h ha

/-! ## Unfolding equations for the assignment pass -/

theorem assignPass_nil (registry : String → Option WorkerClass) (now : Nat)
    (store : List Job) (pool : Pool) (nw : Nat) :
    assignPass registry now [] store pool nw = (store, pool, nw) := rfl

theorem assignPass_not_claimable (registry : String → Option WorkerClass)
    (now : Nat) (job : Job) (rest store : List Job) (pool : Pool) (nw : Nat)
    (hcl : ¬isClaimable now job = true) :
    assignPass registry now (job :: rest) store pool nw =
      assignPass registry now rest store pool nw := by
  rw [assignPass.eq_def]
  dsimp only
  rw [if_neg hcl]

theorem assignPass_unreg (registry : String → Option WorkerClass) (now : Nat)
    (job : Job) (rest store : List Job) (pool : Pool) (nw : Nat)
    (hcl : isClaimable now job = true) (hreg : registry job.jobtype = none) :
    assignPass registry now (job :: rest) store pool nw =
      assignPass registry now rest store pool nw := by
  rw [assignPass.eq_def]
  dsimp only
  rw [if_pos hcl, hreg]

theorem assignPass_at_capacity (registry : String → Option WorkerClass)
    (now : Nat) (job : Job) (rest store : List Job) (pool : Pool) (nw : Nat)
    (wc : WorkerClass) (hcl : isClaimable now job = true)
    (hreg : registry job.jobtype = some wc)
    (hge : ¬poolCount (ensureKey pool job.jobtype) job.jobtype < wc.max_workers) :
    assignPass registry now (job :: rest) store pool nw =
      assignPass registry now rest store (ensureKey pool job.jobtype) nw := by
  rw [assignPass.eq_def]
  dsimp only
  rw [if_pos hcl, hreg]
  dsimp only
  rw [if_neg hge]

theorem assignPass_claim_fail (registry : String → Option WorkerClass)
    (now : Nat) (job : Job) (rest store : List Job) (pool : Pool) (nw : Nat)
    (wc : WorkerClass) (e : QueueError) (hcl : isClaimable now job = true)
    (hreg : registry job.jobtype = some wc)
    (hlt : poolCount (ensureKey pool job.jobtype) job.jobtype < wc.max_workers)
    (hclaim : claimJob store job.id = .error e) :
    assignPass registry now (job :: rest) store pool nw =
      assignPass registry now rest store (ensureKey pool job.jobtype) nw := by
  rw [assignPass.eq_def]
  dsimp only
  rw [if_pos hcl, hreg]
  dsimp only
  rw [if_pos hlt, hclaim]

theorem assignPass_claim_ok (registry : String → Option WorkerClass)
    (now : Nat) (job : Job) (rest store store1 : List Job) (pool : Pool)
    (nw : Nat) (wc : WorkerClass) (hcl : isClaimable now job = true)
    (hreg : registry job.jobtype = some wc)
    (hlt : poolCount (ensureKey pool job.jobtype) job.jobtype < wc.max_workers)
    (hclaim : claimJob store job.id = .ok store1) :
    assignPass registry now (job :: rest) store pool nw =
      assignPass registry now rest store1
        (appendWorker (ensureKey pool job.jobtype) job.jobtype
          { wid := nw, job := { job with claimed := true }, appname := "" })
        (nw + 1) := by
  rw [assignPass.eq_def]
  dsimp only
  rw [if_pos hcl, hreg]
  dsimp only
  rw [if_pos hlt, hclaim]

/-! ## Assignment-pass invariants -/

theorem claimJob_mem_of_ne {store store1 : List Job} {i : Nat} {j : Job}
    (h : claimJob store i = .ok store1) (hj : j ∈ store) (hne : j.id ≠ i) :
    j ∈ store1 := by
  unfold claimJob at h
  by_cases hc : (store.any fun x => x.id == i && !x.claimed) = true
  · rw [if_pos hc] at h
    cases h
    have hfix : (fun x => if x.id == i then { x with claimed := true } else x) j = j := by
      have hb : (j.id == i) = false := beq_eq_false_iff_ne.mpr hne
      simp [hb]
    exact hfix ▸ List.mem_map_of_mem _ hj
  · rw [if_neg hc] at h
    cases h

theorem assignPass_bound (registry : String → Option WorkerClass) (now : Nat) :
    ∀ (jobs store : List Job) (pool : Pool) (nw : Nat),
      (∀ jt wc, registry jt = some wc → poolCount pool jt ≤ wc.max_workers) →
      ∀ jt wc, registry jt = some wc →
        poolCount (assignPass registry now jobs store pool nw).2.1 jt ≤ wc.max_workers
  | [], store, pool, nw, hinv => by
    rw [assignPass_nil]
    exact hinv
  | job :: rest, store, pool, nw, hinv => by
    by_cases hcl : isClaimable now job = true
    · cases hreg : registry job.jobtype with
      | none =>
        rw [assignPass_unreg registry now job rest store pool nw hcl hreg]
        exact assignPass_bound registry now rest store pool nw hinv
      | some wc0 =>
        by_cases hlt :
            poolCount (ensureKey pool job.jobtype) job.jobtype < wc0.max_workers
        · cases hclaim : claimJob store job.id with
          | error e =>
            rw [assignPass_claim_fail registry now job rest store pool nw wc0 e
              hcl hreg hlt hclaim]
            refine assignPass_bound registry now rest store _ nw ?_
            intro jt wc hr
            rw [poolCount_ensureKey]
            exact hinv jt wc hr
          | ok store1 =>
            rw [assignPass_claim_ok registry now job rest store store1 pool nw wc0
              hcl hreg hlt hclaim]
            refine assignPass_bound registry now rest store1 _ (nw + 1) ?_
            intro jt wc hr
            by_cases hj : jt = job.jobtype
            · subst hj
              rw [poolCount_appendWorker_ensure_self]
              rw [poolCount_ensureKey] at hlt
              have hwc : wc = wc0 := by
                rw [hr] at hreg
                cases hreg
                rfl
              subst hwc
              omega
            · rw [poolCount_appendWorker_ensure_ne pool job.jobtype jt _ hj]
              exact hinv jt wc hr
        · rw [assignPass_at_capacity registry now job rest store pool nw wc0
            hcl hreg hlt]
          refine assignPass_bound registry now rest store _ nw ?_
          intro jt wc hr
          rw [poolCount_ensureKey]
          exact hinv jt wc hr
    · rw [assignPass_not_claimable registry now job rest store pool nw hcl]
      exact assignPass_bound registry now rest store pool nw hinv

theorem assignPass_count_at_capacity (registry : String → Option WorkerClass)
    (now : Nat) (jt : String) (wc : WorkerClass) (hreg : registry jt = some wc) :
    ∀ (jobs store : List Job) (pool : Pool) (nw : Nat),
      poolCount pool jt = wc.max_workers →
      poolCount (assignPass registry now jobs store pool nw).2.1 jt = wc.max_workers
  | [], store, pool, nw, hcap => by
    rw [assignPass_nil]
    exact hcap
  | job :: rest, store, pool, nw, hcap => by
    by_cases hcl : isClaimable now job = true
    · cases hreg0 : registry job.jobtype with
      | none =>
        rw [assignPass_unreg registry now job rest store pool nw hcl hreg0]
        exact assignPass_count_at_capacity registry now jt wc hreg rest store pool nw hcap
      | some wc0 =>
        by_cases hlt :
            poolCount (ensureKey pool job.jobtype) job.jobtype < wc0.max_workers
        · cases hclaim : claimJob store job.id with
          | error e =>
            rw [assignPass_claim_fail registry now job rest store pool nw wc0 e
              hcl hreg0 hlt hclaim]
            exact assignPass_count_at_capacity registry now jt wc hreg rest store _ nw
              (by rw [poolCount_ensureKey]; exact hcap)
          | ok store1 =>
            rw [assignPass_claim_ok registry now job rest store store1 pool nw wc0
              hcl hreg0 hlt hclaim]
            have hne : jt ≠ job.jobtype := by
              intro hj
              subst hj
              rw [poolCount_ensureKey, hcap] at hlt
              rw [hreg0] at hreg
              cases hreg
              omega
            exact assignPass_count_at_capacity registry now jt wc hreg rest store1 _
              (nw + 1)
              (by rw [poolCount_appendWorker_ensure_ne pool job.jobtype jt _ hne]; exact hcap)
        · rw [assignPass_at_capacity registry now job rest store pool nw wc0
            hcl hreg0 hlt]
          exact assignPass_count_at_capacity registry now jt wc hreg rest store _ nw
            (by rw [poolCount_ensureKey]; exact hcap)
    · rw [assignPass_not_claimable registry now job rest store pool nw hcl]
      exact assignPass_count_at_capacity registry now jt wc hreg rest store pool nw hcap

theorem assignPass_track (registry : String → Option WorkerClass) (now : Nat)
    (jt : String) (wc : WorkerClass) (hreg : registry jt = some wc) :
    ∀ (jobs store : List Job) (pool : Pool) (nw : Nat) (j : Job),
      j ∈ store → j.jobtype = jt →
      poolCount pool jt = wc.max_workers →
      (∀ x ∈ jobs, x.jobtype ≠ jt → x.id ≠ j.id) →
      j ∈ (assignPass registry now jobs store pool nw).1
  | [], store, pool, nw, j, hj, _, _, _ => by
    rw [assignPass_nil]
    exact hj
  | job :: rest, store, pool, nw, j, hj, hjt, hcap, hids => by
    have hids1 : ∀ x ∈ rest, x.jobtype ≠ jt → x.id ≠ j.id :=
      fun x hx => hids x (by simp [hx])
    by_cases hcl : isClaimable now job = true
    · cases hreg0 : registry job.jobtype with
      | none =>
        rw [assignPass_unreg registry now job rest store pool nw hcl hreg0]
        exact assignPass_track registry now jt wc hreg rest store pool nw j
          hj hjt hcap hids1
      | some wc0 =>
        by_cases hlt :
            poolCount (ensureKey pool job.jobtype) job.jobtype < wc0.max_workers
        · cases hclaim : claimJob store job.id with
          | error e =>
            rw [assignPass_claim_fail registry now job rest store pool nw wc0 e
              hcl hreg0 hlt hclaim]
            exact assignPass_track registry now jt wc hreg rest store _ nw j
              hj hjt (by rw [poolCount_ensureKey]; exact hcap) hids1
          | ok store1 =>
            rw [assignPass_claim_ok registry now job rest store store1 pool nw wc0
              hcl hreg0 hlt hclaim]
            have hne : job.jobtype ≠ jt := by
              intro hj2
              rw [hj2, poolCount_ensureKey, hcap] at hlt
              rw [hj2, hreg] at hreg0
              cases hreg0
              omega
            have hmem1 : j ∈ store1 :=
              claimJob_mem_of_ne hclaim hj (fun hid => hids job (by simp) hne hid.symm)
            exact assignPass_track registry now jt wc hreg rest store1 _ (nw + 1) j
              hmem1 hjt
              (by rw [poolCount_appendWorker_ensure_ne pool job.jobtype jt _
                  (fun hh => hne hh.symm)]; exact hcap)
              hids1
        · rw [assignPass_at_capacity registry now job rest store pool nw wc0
            hcl hreg0 hlt]
          exact assignPass_track registry now jt wc hreg rest store _ nw j
            hj hjt (by rw [poolCount_ensureKey]; exact hcap) hids1
    · rw [assignPass_not_claimable registry now job rest store pool nw hcl]
      exact assignPass_track registry now jt wc hreg rest store pool nw j
        hj hjt hcap hids1

theorem assignPass_mem_unregistered (registry : String → Option WorkerClass)
    (now : Nat) :
    ∀ (jobs store : List Job) (pool : Pool) (nw : Nat) (j : Job),
      j ∈ store →
      (∀ x ∈ jobs, registry x.jobtype ≠ none → x.id ≠ j.id) →
      j ∈ (assignPass registry now jobs store pool nw).1
  | [], store, pool, nw, j, hj, _ => by
    rw [assignPass_nil]
    exact hj
  | job :: rest, store, pool, nw, j, hj, hids => by
    have hids1 : ∀ x ∈ rest, registry x.jobtype ≠ none → x.id ≠ j.id :=
      fun x hx => hids x (by simp [hx])
    by_cases hcl : isClaimable now job = true
    · cases hreg0 : registry job.jobtype with
      | none =>
        rw [assignPass_unreg registry now job rest store pool nw hcl hreg0]
        exact assignPass_mem_unregistered registry now rest store pool nw j hj hids1
      | some wc0 =>
        by_cases hlt :
            poolCount (ensureKey pool job.jobtype) job.jobtype < wc0.max_workers
        · cases hclaim : claimJob store job.id with
          | error e =>
            rw [assignPass_claim_fail registry now job rest store pool nw wc0 e
              hcl hreg0 hlt hclaim]
            exact assignPass_mem_unregistered registry now rest store _ nw j hj hids1
          | ok store1 =>
            rw [assignPass_claim_ok registry now job rest store store1 pool nw wc0
              hcl hreg0 hlt hclaim]
            have hmem1 : j ∈ store1 :=
              claimJob_mem_of_ne hclaim hj
                (fun hid => hids job (by simp) (by simp [hreg0]) hid.symm)
            exact assignPass_mem_unregistered registry now rest store1 _ (nw + 1) j
              hmem1 hids1
        · rw [assignPass_at_capacity registry now job rest store pool nw wc0
            hcl hreg0 hlt]
          exact assignPass_mem_unregistered registry now rest store _ nw j hj hids1
    · rw [assignPass_not_claimable registry now job rest store pool nw hcl]
      exact assignPass_mem_unregistered registry now rest store pool nw j hj hids1

theorem job_eq_of_id_eq {store : List Job} (hnd : (store.map Job.id).Nodup)
    {x j : Job} (hx : x ∈ store) (hj : j ∈ store) (h : x.id = j.id) : x = j :=
  List.inj_on_of_nodup_map hnd hx hj h

/-- C2: in a delegation tick the manager claims a claimable job and spawns a
worker only when the jobtype has a registered worker implementation and the
pool count for it is strictly below the class's `max_workers`: the per-type
capacity bound is preserved by every tick; a claimable job of a type whose
(all-live) pool is at capacity is left unclaimed, its record untouched; and
jobs of types without a registered implementation are never claimed. -/
theorem c2_capacity (registry : String → Option WorkerClass) (A : Nat → Bool)
    (now : Nat) (st : MState) :
    ((∀ jt wc, registry jt = some wc → poolCount st.pool jt ≤ wc.max_workers) →
      ∀ jt wc, registry jt = some wc →
        poolCount (delegate registry A now st).1.pool jt ≤ wc.max_workers) ∧
    (∀ jt wc ws, registry jt = some wc → lookupPool st.pool jt = some ws →
      ws.length = wc.max_workers → (∀ w ∈ ws, A w.wid = true) →
      (st.store.map Job.id).Nodup →
      poolCount (delegate registry A now st).1.pool jt = wc.max_workers ∧
        ∀ j ∈ st.store, j.jobtype = jt → j ∈ (delegate registry A now st).1.store) ∧
    ((st.store.map Job.id).Nodup →
      ∀ j ∈ st.store, registry j.jobtype = none →
        j ∈ (delegate registry A now st).1.store) := by
  simp only [delegate, get_all_jobs_full]
  refine ⟨?_, ?_, ?_⟩
  · intro hinv jt wc hr
    refine assignPass_bound registry now st.store st.store _ st.nextWid ?_ jt wc hr
    intro jt1 wc1 hr1
    exact le_trans (reconcilePool_count_le A _ st.pool st.stopping jt1)
      (hinv jt1 wc1 hr1)
  · intro jt wc ws hr hlk hlen halive hnd
    have hlk1 : lookupPool
        (reconcilePool A (st.store.map Job.id) st.pool st.stopping).1 jt = some ws :=
      reconcilePool_lookup_alive A _ st.pool st.stopping jt ws hlk halive
    have hcap : poolCount
        (reconcilePool A (st.store.map Job.id) st.pool st.stopping).1 jt =
        wc.max_workers := by
      unfold poolCount
      rw [hlk1]
      simpa using hlen
    constructor
    · exact assignPass_count_at_capacity registry now jt wc hr st.store st.store _
        st.nextWid hcap
    · intro j hj hjt
      refine assignPass_track registry now jt wc hr st.store st.store _
        st.nextWid j hj hjt hcap ?_
      intro x hx hxjt hxid
      exact hxjt (by rw [job_eq_of_id_eq hnd hx hj hxid, hjt])
  · intro hnd j hj hjn
    refine assignPass_mem_unregistered registry now st.store st.store _
      st.nextWid j hj ?_
    intro x hx hxreg hxid
    exact hxreg (by rw [job_eq_of_id_eq hnd hx hj hxid, hjn])

/-- Registry and state for the capacity witness: scenario C of the spec, a
"board" pool at its capacity of two live workers and a third claimable
"board" job. -/
def boardRegistry (jt : String) : Option WorkerClass :=
  if jt == "board" then some { max_workers := 2 } else none

def boardState : MState :=
  { store := [sampleJob 7 "board" "b3" false],
    pool := [("board", [sampleWorker 0 1 "board", sampleWorker 1 2 "board"])],
    stopping := [], nextWid := 10 }

theorem c2_capacity_witness :
    ((∀ w ∈ [sampleWorker 0 1 "board", sampleWorker 1 2 "board"],
        (fun _ => true : Nat → Bool) w.wid = true) ∧
      (boardState.store.map Job.id).Nodup) ∧
    (poolCount (delegate boardRegistry (fun _ => true) 0 boardState).1.pool
        "board" = 2 ∧
      ∀ j ∈ boardState.store, j.jobtype = "board" →
        j ∈ (delegate boardRegistry (fun _ => true) 0 boardState).1.store) :=
  ⟨⟨by decide, by decide⟩,
   (c2_capacity boardRegistry (fun _ => true) 0 boardState).2.1 "board"
     { max_workers := 2 } [sampleWorker 0 1 "board", sampleWorker 1 2 "board"]
     rfl rfl rfl (by decide) (by decide)⟩

/-! ## Single interrupt per cancelled job (C1) -/

/-- The number of pool entries before the first occurrence of `w`: the
measure that decreases on every tick in which a still-draining worker is
skipped by the reconciliation iterator. -/
def posIn (w : Worker) (l : List Worker) : Nat :=
  (l.takeWhile fun x => x != w).length

theorem posIn_cons_self (w : Worker) (l : List Worker) : posIn w (w :: l) = 0 := by
  simp [posIn, List.takeWhile_cons]

theorem posIn_cons_ne (w x : Worker) (l : List Worker) (h : x ≠ w) :
    posIn w (x :: l) = posIn w l + 1 := by
  simp [posIn, List.takeWhile_cons, h]

theorem posIn_append_left (w : Worker) :
    ∀ (l l2 : List Worker), w ∈ l → posIn w (l ++ l2) = posIn w l
  | [], _, h => absurd h (List.not_mem_nil w)
  | x :: rest, l2, h => by
    by_cases hx : x = w
    · subst hx
      rw [List.cons_append, posIn_cons_self, posIn_cons_self]
    · have hmem : w ∈ rest := (List.mem_cons.mp h).resolve_left (fun he => hx he.symm)
      rw [List.cons_append, posIn_cons_ne w x _ hx, posIn_cons_ne w x rest hx,
        posIn_append_left w rest l2 hmem]

theorem reconcileList_mem_alive (A : Nat → Bool) (K : List Nat) :
    ∀ (ws : List Worker) (s : List Nat) (w : Worker), w ∈ ws → A w.wid = true →
      w ∈ (reconcileList A K s ws).1
  | [], _, w, h, _ => absurd h (List.not_mem_nil w)
  | x :: rest, s, w, h, ha => by
    by_cases hx : A x.wid = true
    · by_cases hc : x.job.id ∈ K ∨ x.job.id ∈ s
      · rw [reconcileList_alive_old A K s x rest hx hc]
        rcases List.mem_cons.mp h with h1 | h1
        · exact h1 ▸ List.mem_cons_self _ _
        · exact List.mem_cons_of_mem _ (reconcileList_mem_alive A K rest s w h1 ha)
      · rw [reconcileList_alive_new A K s x rest hx hc]
        rcases List.mem_cons.mp h with h1 | h1
        · exact h1 ▸ List.mem_cons_self _ _
        · exact List.mem_cons_of_mem _
            (reconcileList_mem_alive A K rest (s ++ [x.job.id]) w h1 ha)
    · have hwx : w ≠ x := fun he => hx (he ▸ ha)
      have h1 : w ∈ rest := (List.mem_cons.mp h).resolve_left hwx
      cases rest with
      | nil => cases h1
      | cons w2 rest2 =>
        rw [reconcileList_dead_cons A K s x w2 rest2 (by simpa using hx)]
        rcases List.mem_cons.mp h1 with h2 | h2
        · exact h2 ▸ List.mem_cons_self _ _
        · exact List.mem_cons_of_mem _
            (reconcileList_mem_alive A K rest2 (s.erase x.job.id) w h2 ha)

theorem reconcileList_subset (A : Nat → Bool) (K : List Nat) :
    ∀ (ws : List Worker) (s : List Nat) (x : Worker),
      x ∈ (reconcileList A K s ws).1 → x ∈ ws
  | [], s, x, h => by rw [reconcileList_nil] at h; cases h
  | y :: rest, s, x, h => by
    by_cases hy : A y.wid = true
    · by_cases hc : y.job.id ∈ K ∨ y.job.id ∈ s
      · rw [reconcileList_alive_old A K s y rest hy hc] at h
        rcases List.mem_cons.mp h with h1 | h1
        · exact h1 ▸ List.mem_cons_self _ _
        · exact List.mem_cons_of_mem _ (reconcileList_subset A K rest s x h1)
      · rw [reconcileList_alive_new A K s y rest hy hc] at h
        rcases List.mem_cons.mp h with h1 | h1
        · exact h1 ▸ List.mem_cons_self _ _
        · exact List.mem_cons_of_mem _
            (reconcileList_subset A K rest (s ++ [y.job.id]) x h1)
    · cases rest with
      | nil =>
        rw [reconcileList_dead_nil A K s y (by simpa using hy)] at h
        cases h
      | cons w2 rest2 =>
        rw [reconcileList_dead_cons A K s y w2 rest2 (by simpa using hy)] at h
        rcases List.mem_cons.mp h with h1 | h1
        · exact h1 ▸ List.mem_cons_of_mem _ (List.mem_cons_self _ _)
        · exact List.mem_cons_of_mem _ (List.mem_cons_of_mem _
            (reconcileList_subset A K rest2 (s.erase y.job.id) x h1))

theorem reconcileList_stopping_gain (A : Nat → Bool) (K : List Nat) (j : Nat) :
    ∀ (ws : List Worker) (s : List Nat),
      j ∈ (reconcileList A K s ws).2.1 →
      j ∈ s ∨ j ∈ (reconcileList A K s ws).2.2
  | [], s, h => by rw [reconcileList_nil] at h ⊢; exact Or.inl h
  | x :: rest, s, h => by
    by_cases hx : A x.wid = true
    · by_cases hc : x.job.id ∈ K ∨ x.job.id ∈ s
      · rw [reconcileList_alive_old A K s x rest hx hc] at h ⊢
        exact reconcileList_stopping_gain A K j rest s h
      · rw [reconcileList_alive_new A K s x rest hx hc] at h ⊢
        rcases reconcileList_stopping_gain A K j rest (s ++ [x.job.id]) h with h1 | h1
        · rcases List.mem_append.mp h1 with h2 | h2
          · exact Or.inl h2
          · exact Or.inr (List.mem_cons.mpr (Or.inl (List.mem_singleton.mp h2)))
        · exact Or.inr (List.mem_cons_of_mem _ h1)
    · cases rest with
      | nil =>
        rw [reconcileList_dead_nil A K s x (by simpa using hx)] at h ⊢
        exact Or.inl (List.mem_of_mem_erase h)
      | cons w2 rest2 =>
        rw [reconcileList_dead_cons A K s x w2 rest2 (by simpa using hx)] at h ⊢
        rcases reconcileList_stopping_gain A K j rest2 (s.erase x.job.id) h with h1 | h1
        · exact Or.inl (List.mem_of_mem_erase h1)
        · exact Or.inr h1

theorem reconcileList_stopping_track (A : Nat → Bool) (K : List Nat) (j : Nat) :
    ∀ (ws : List Worker) (s : List Nat),
      (∀ x ∈ ws, x.job.id = j → A x.wid = true) →
      ((j ∈ (reconcileList A K s ws).2.1 ↔
          (j ∈ s ∨ j ∈ (reconcileList A K s ws).2.2)) ∧
        (j ∈ s → j ∉ (reconcileList A K s ws).2.2) ∧
        (reconcileList A K s ws).2.2.count j ≤ 1)
  | [], s, _ => by
    rw [reconcileList_nil]
    simp
  | x :: rest, s, ha => by
    have hatail : ∀ y ∈ rest, y.job.id = j → A y.wid = true :=
      fun y hy => ha y (by simp [hy])
    by_cases hx : A x.wid = true
    · by_cases hc : x.job.id ∈ K ∨ x.job.id ∈ s
      · rw [reconcileList_alive_old A K s x rest hx hc]
        exact reconcileList_stopping_track A K j rest s hatail
      · rw [reconcileList_alive_new A K s x rest hx hc]
        obtain ⟨ih1, ih2, ih3⟩ :=
          reconcileList_stopping_track A K j rest (s ++ [x.job.id]) hatail
        by_cases hxj : x.job.id = j
        · subst hxj
          have hjs : x.job.id ∉ s := fun hmem => hc (Or.inr hmem)
          have hjs1 : x.job.id ∈ s ++ [x.job.id] := List.mem_append.mpr (Or.inr (by simp))
          have hnint : x.job.id ∉ (reconcileList A K (s ++ [x.job.id]) rest).2.2 :=
            ih2 hjs1
          refine ⟨?_, fun hmem => absurd hmem hjs, ?_⟩
          · constructor
            · intro _
              exact Or.inr (List.mem_cons_self _ _)
            · intro _
              exact ih1.mpr (Or.inl hjs1)
          · rw [List.count_cons_self, List.count_eq_zero.mpr hnint]
        · have hs1 : j ∈ s ++ [x.job.id] ↔ j ∈ s := by
            constructor
            · intro h1
              rcases List.mem_append.mp h1 with h2 | h2
              · exact h2
              · exact absurd (List.mem_singleton.mp h2).symm hxj
            · intro h1
              exact List.mem_append.mpr (Or.inl h1)
          refine ⟨?_, ?_, ?_⟩
          · rw [ih1, hs1, List.mem_cons]
            constructor
            · rintro (h1 | h1)
              · exact Or.inl h1
              · exact Or.inr (Or.inr h1)
            · rintro (h1 | h2 | h1)
              · exact Or.inl h1
              · exact absurd h2.symm hxj
              · exact Or.inr h1
          · intro hmem hcons
            rcases List.mem_cons.mp hcons with h1 | h1
            · exact hxj h1.symm
            · exact ih2 (hs1.mpr hmem) h1
          · rw [List.count_cons_of_ne (fun h => hxj h.symm)]
            exact ih3
    · have hxj : x.job.id ≠ j := fun he => hx (ha x (by simp) he)
      have herase : j ∈ s.erase x.job.id ↔ j ∈ s :=
        List.mem_erase_of_ne (fun h => hxj h.symm)
      cases rest with
      | nil =>
        rw [reconcileList_dead_nil A K s x (by simpa using hx)]
        simpa using herase
      | cons w2 rest2 =>
        rw [reconcileList_dead_cons A K s x w2 rest2 (by simpa using hx)]
        obtain ⟨ih1, ih2, ih3⟩ :=
          reconcileList_stopping_track A K j rest2 (s.erase x.job.id)
            (fun y hy => hatail y (by simp [hy]))
        exact ⟨by rw [ih1, herase], fun hmem => ih2 (herase.mpr hmem), ih3⟩

theorem reconcileList_progress (A : Nat → Bool) (K : List Nat) (j : Nat)
    (w : Worker) (hwj : w.job.id = j) (hK : j ∉ K) :
    ∀ (ws : List Worker) (s : List Nat), w ∈ ws → A w.wid = true → j ∉ s →
      j ∉ (reconcileList A K s ws).2.2 →
      posIn w (reconcileList A K s ws).1 < posIn w ws
  | [], s, hmem, _, _, _ => absurd hmem (List.not_mem_nil w)
  | x :: rest, s, hmem, halive, hs, hints => by
    by_cases hx : A x.wid = true
    · by_cases hxw : x = w
      · subst hxw
        have hc : ¬(x.job.id ∈ K ∨ x.job.id ∈ s) := by
          rw [hwj]
          rintro (h1 | h1)
          · exact hK h1
          · exact hs h1
        rw [reconcileList_alive_new A K s x rest hx hc] at hints
        dsimp only at hints
        rw [hwj] at hints
        exact absurd (List.mem_cons_self j _) hints
      · have hmem1 : w ∈ rest :=
          (List.mem_cons.mp hmem).resolve_left (fun he => hxw he.symm)
        by_cases hc : x.job.id ∈ K ∨ x.job.id ∈ s
        · rw [reconcileList_alive_old A K s x rest hx hc] at hints ⊢
          dsimp only at hints ⊢
          rw [posIn_cons_ne w x _ hxw, posIn_cons_ne w x rest hxw]
          have := reconcileList_progress A K j w hwj hK rest s hmem1 halive hs hints
          omega
        · rw [reconcileList_alive_new A K s x rest hx hc] at hints ⊢
          dsimp only at hints ⊢
          have hxid : x.job.id ≠ j := fun he =>
            hints (by rw [he]; exact List.mem_cons_self _ _)
          have hints1 : j ∉ (reconcileList A K (s ++ [x.job.id]) rest).2.2 :=
            fun h1 => hints (List.mem_cons_of_mem _ h1)
          have hs1 : j ∉ s ++ [x.job.id] := by
            simp only [List.mem_append, List.mem_singleton]
            rintro (h1 | h1)
            · exact hs h1
            · exact hxid h1.symm
          rw [posIn_cons_ne w x _ hxw, posIn_cons_ne w x rest hxw]
          have := reconcileList_progress A K j w hwj hK rest (s ++ [x.job.id])
            hmem1 halive hs1 hints1
          omega
    · have hxw : x ≠ w := fun he => hx (he ▸ halive)
      have hmem1 : w ∈ rest :=
        (List.mem_cons.mp hmem).resolve_left (fun he => hxw he.symm)
      cases rest with
      | nil => cases hmem1
      | cons w2 rest2 =>
        rw [reconcileList_dead_cons A K s x w2 rest2 (by simpa using hx)] at hints ⊢
        dsimp only at hints ⊢
        by_cases hw2 : w2 = w
        · rw [hw2, posIn_cons_self, posIn_cons_ne w x _ hxw]
          omega
        · have hmem2 : w ∈ rest2 :=
            (List.mem_cons.mp hmem1).resolve_left (fun he => hw2 he.symm)
          have hserase : j ∉ s.erase x.job.id :=
            fun h1 => hs (List.mem_of_mem_erase h1)
          rw [posIn_cons_ne w w2 _ hw2, posIn_cons_ne w x _ hxw,
            posIn_cons_ne w w2 rest2 hw2]
          have := reconcileList_progress A K j w hwj hK rest2 (s.erase x.job.id)
            hmem2 halive hserase hints
          omega

theorem reconcilePool_mem_alive (A : Nat → Bool) (K : List Nat) :
    ∀ (p : Pool) (s : List Nat) (jt : String) (ws : List Worker) (w : Worker),
      lookupPool p jt = some ws → w ∈ ws → A w.wid = true →
      ∃ ws1, lookupPool (reconcilePool A K p s).1 jt = some ws1 ∧ w ∈ ws1
  | [], s, jt, ws, w, h, _, _ => by rw [lookupPool_nil] at h; cases h
  | (jt0, ws0) :: rest, s, jt, ws, w, h, hmem, ha => by
    rw [lookupPool_cons] at h
    rw [reconcilePool_cons, lookupPool_cons]
    dsimp only at h ⊢
    by_cases he : (jt0 == jt) = true
    · rw [if_pos he] at h ⊢
      cases h
      exact ⟨_, rfl, reconcileList_mem_alive A K ws0 s w hmem ha⟩
    · rw [if_neg he] at h ⊢
      exact reconcilePool_mem_alive A K rest (reconcileList A K s ws0).2.1 jt ws w
        h hmem ha

theorem reconcilePool_stopping_gain (A : Nat → Bool) (K : List Nat) (j : Nat) :
    ∀ (p : Pool) (s : List Nat),
      j ∈ (reconcilePool A K p s).2.1 →
      j ∈ s ∨ j ∈ (reconcilePool A K p s).2.2
  | [], s, h => by rw [reconcilePool_nil] at h ⊢; exact Or.inl h
  | (jt0, ws0) :: rest, s, h => by
    rw [reconcilePool_cons] at h ⊢
    dsimp only at h ⊢
    rcases reconcilePool_stopping_gain A K j rest (reconcileList A K s ws0).2.1 h
      with h1 | h1
    · rcases reconcileList_stopping_gain A K j ws0 s h1 with h2 | h2
      · exact Or.inl h2
      · exact Or.inr (List.mem_append.mpr (Or.inl h2))
    · exact Or.inr (List.mem_append.mpr (Or.inr h1))

theorem reconcilePool_stopping_track (A : Nat → Bool) (K : List Nat) (j : Nat) :
    ∀ (p : Pool) (s : List Nat),
      (∀ e ∈ p, ∀ x ∈ e.2, x.job.id = j → A x.wid = true) →
      ((j ∈ (reconcilePool A K p s).2.1 ↔
          (j ∈ s ∨ j ∈ (reconcilePool A K p s).2.2)) ∧
        (j ∈ s → j ∉ (reconcilePool A K p s).2.2) ∧
        (reconcilePool A K p s).2.2.count j ≤ 1)
  | [], s, _ => by
    rw [reconcilePool_nil]
    simp
  | (jt0, ws0) :: rest, s, ha => by
    have haL : ∀ x ∈ ws0, x.job.id = j → A x.wid = true :=
      fun x hx => ha (jt0, ws0) (by simp) x hx
    have haP : ∀ e ∈ rest, ∀ x ∈ e.2, x.job.id = j → A x.wid = true :=
      fun e he => ha e (by simp [he])
    obtain ⟨l1, l2, l3⟩ := reconcileList_stopping_track A K j ws0 s haL
    obtain ⟨p1, p2, p3⟩ :=
      reconcilePool_stopping_track A K j rest (reconcileList A K s ws0).2.1 haP
    rw [reconcilePool_cons]
    dsimp only
    refine ⟨?_, ?_, ?_⟩
    · rw [p1, List.mem_append]
      rw [l1]
      constructor
      · rintro ((h1 | h1) | h1)
        · exact Or.inl h1
        · exact Or.inr (Or.inl h1)
        · exact Or.inr (Or.inr h1)
      · rintro (h1 | h1 | h1)
        · exact Or.inl (Or.inl h1)
        · exact Or.inl (Or.inr h1)
        · exact Or.inr h1
    · intro hs hmem
      rcases List.mem_append.mp hmem with h1 | h1
      · exact l2 hs h1
      · exact p2 (l1.mpr (Or.inl hs)) h1
    · rw [List.count_append]
      by_cases hL : j ∈ (reconcileList A K s ws0).2.2
      · have : j ∉ (reconcilePool A K rest (reconcileList A K s ws0).2.1).2.2 :=
          p2 (l1.mpr (Or.inr hL))
        rw [List.count_eq_zero.mpr this]
        omega
      · rw [List.count_eq_zero.mpr hL]
        omega

theorem reconcilePool_progress (A : Nat → Bool) (K : List Nat) (j : Nat)
    (w : Worker) (hwj : w.job.id = j) (hK : j ∉ K) :
    ∀ (p : Pool) (s : List Nat) (jt : String) (ws : List Worker),
      lookupPool p jt = some ws → w ∈ ws → A w.wid = true → j ∉ s →
      j ∉ (reconcilePool A K p s).2.2 →
      ∃ ws1, lookupPool (reconcilePool A K p s).1 jt = some ws1 ∧ w ∈ ws1 ∧
        posIn w ws1 < posIn w ws
  | [], s, jt, ws, h, _, _, _, _ => by rw [lookupPool_nil] at h; cases h
  | (jt0, ws0) :: rest, s, jt, ws, h, hmem, ha, hs, hints => by
    rw [lookupPool_cons] at h
    rw [reconcilePool_cons] at hints ⊢
    dsimp only at h hints ⊢
    by_cases he : (jt0 == jt) = true
    · rw [if_pos he] at h
      cases h
      rw [lookupPool_cons]
      dsimp only
      rw [if_pos he]
      have hintsL : j ∉ (reconcileList A K s ws0).2.2 :=
        fun h1 => hints (List.mem_append.mpr (Or.inl h1))
      exact ⟨_, rfl, reconcileList_mem_alive A K ws0 s w hmem ha,
        reconcileList_progress A K j w hwj hK ws0 s hmem ha hs hintsL⟩
    · rw [if_neg he] at h
      rw [lookupPool_cons]
      dsimp only
      rw [if_neg he]
      have hintsL : j ∉ (reconcileList A K s ws0).2.2 :=
        fun h1 => hints (List.mem_append.mpr (Or.inl h1))
      have hintsP : j ∉ (reconcilePool A K rest (reconcileList A K s ws0).2.1).2.2 :=
        fun h1 => hints (List.mem_append.mpr (Or.inr h1))
      have hs1 : j ∉ (reconcileList A K s ws0).2.1 := fun h1 => by
        rcases reconcileList_stopping_gain A K j ws0 s h1 with h2 | h2
        · exact hs h2
        · exact hintsL h2
      exact reconcilePool_progress A K j w hwj hK rest
        (reconcileList A K s ws0).2.1 jt ws h hmem ha hs1 hintsP

theorem reconcilePool_workers_sub (A : Nat → Bool) (K : List Nat) :
    ∀ (p : Pool) (s : List Nat), ∀ e1 ∈ (reconcilePool A K p s).1, ∀ x ∈ e1.2,
      ∃ e ∈ p, x ∈ e.2
  | [], s, e1, he1, x, hx => by rw [reconcilePool_nil] at he1; cases he1
  | (jt0, ws0) :: rest, s, e1, he1, x, hx => by
    rw [reconcilePool_cons] at he1
    dsimp only at he1
    rcases List.mem_cons.mp he1 with h1 | h1
    · subst h1
      exact ⟨(jt0, ws0), by simp, reconcileList_subset A K ws0 s x hx⟩
    · obtain ⟨e, he, hxe⟩ := reconcilePool_workers_sub A K rest
        (reconcileList A K s ws0).2.1 e1 h1 x hx
      exact ⟨e, by simp [he], hxe⟩

theorem lookupPool_ensureKey_of_some {p : Pool} {a jt : String}
    {ws : List Worker} (h : lookupPool p jt = some ws) :
    lookupPool (ensureKey p a) jt = some ws := by
  by_cases hja : jt = a
  · subst hja
    rw [lookupPool_ensureKey_self, h]
    rfl
  · rw [lookupPool_ensureKey_ne p a jt hja, h]

theorem assignPass_lookup_extend (registry : String → Option WorkerClass)
    (now : Nat) :
    ∀ (jobs store : List Job) (pool : Pool) (nw : Nat) (jt : String)
      (ws : List Worker), lookupPool pool jt = some ws →
      ∃ ext, lookupPool (assignPass registry now jobs store pool nw).2.1 jt =
        some (ws ++ ext)
  | [], store, pool, nw, jt, ws, h => by
    rw [assignPass_nil]
    exact ⟨[], by rw [h]; simp⟩
  | job :: rest, store, pool, nw, jt, ws, h => by
    by_cases hcl : isClaimable now job = true
    · cases hreg0 : registry job.jobtype with
      | none =>
        rw [assignPass_unreg registry now job rest store pool nw hcl hreg0]
        exact assignPass_lookup_extend registry now rest store pool nw jt ws h
      | some wc0 =>
        by_cases hlt :
            poolCount (ensureKey pool job.jobtype) job.jobtype < wc0.max_workers
        · cases hclaim : claimJob store job.id with
          | error e =>
            rw [assignPass_claim_fail registry now job rest store pool nw wc0 e
              hcl hreg0 hlt hclaim]
            exact assignPass_lookup_extend registry now rest store _ nw jt ws
              (lookupPool_ensureKey_of_some h)
          | ok store1 =>
            rw [assignPass_claim_ok registry now job rest store store1 pool nw wc0
              hcl hreg0 hlt hclaim]
            by_cases hja : jt = job.jobtype
            · subst hja
              have h1 : lookupPool
                  (appendWorker (ensureKey pool job.jobtype) job.jobtype
                    { wid := nw, job := { job with claimed := true }, appname := "" })
                  job.jobtype = some (ws ++
                    [{ wid := nw, job := { job with claimed := true }, appname := "" }]) :=
                lookupPool_appendWorker_self job.jobtype _ (ensureKey pool job.jobtype) ws
                  (lookupPool_ensureKey_of_some h)
              obtain ⟨ext, hext⟩ := assignPass_lookup_extend registry now rest store1 _
                (nw + 1) job.jobtype _ h1
              refine ⟨{ wid := nw, job := { job with claimed := true }, appname := "" } :: ext, ?_⟩
              rw [hext]
              simp
            · have h1 : lookupPool
                  (appendWorker (ensureKey pool job.jobtype) job.jobtype
                    { wid := nw, job := { job with claimed := true }, appname := "" })
                  jt = some ws := by
                rw [lookupPool_appendWorker_ne job.jobtype jt _ hja]
                exact lookupPool_ensureKey_of_some h
              exact assignPass_lookup_extend registry now rest store1 _ (nw + 1) jt ws h1
        · rw [assignPass_at_capacity registry now job rest store pool nw wc0
            hcl hreg0 hlt]
          exact assignPass_lookup_extend registry now rest store _ nw jt ws
            (lookupPool_ensureKey_of_some h)
    · rw [assignPass_not_claimable registry now job rest store pool nw hcl]
      exact assignPass_lookup_extend registry now rest store pool nw jt ws h

theorem mem_ensureKey (p : Pool) (a : String) :
    ∀ e1 ∈ ensureKey p a, e1 ∈ p ∨ e1 = (a, []) := by
  intro e1 he1
  unfold ensureKey at he1
  by_cases hk : (p.any fun e => e.1 == a) = true
  · rw [if_pos hk] at he1
    exact Or.inl he1
  · rw [if_neg hk] at he1
    rcases List.mem_append.mp he1 with h1 | h1
    · exact Or.inl h1
    · exact Or.inr (List.mem_singleton.mp h1)

theorem mem_appendWorker (p : Pool) (a : String) (w0 : Worker) :
    ∀ e1 ∈ appendWorker p a w0, ∀ x ∈ e1.2, (∃ e ∈ p, x ∈ e.2) ∨ x = w0 := by
  intro e1 he1 x hx
  unfold appendWorker at he1
  obtain ⟨e, he, hfe⟩ := List.mem_map.mp he1
  by_cases hea : (e.1 == a) = true
  · rw [if_pos hea] at hfe
    subst hfe
    rcases List.mem_append.mp hx with h1 | h1
    · exact Or.inl ⟨e, he, h1⟩
    · exact Or.inr (List.mem_singleton.mp h1)
  · rw [if_neg hea] at hfe
    subst hfe
    exact Or.inl ⟨e, he, hx⟩

theorem assignPass_pool_workers (registry : String → Option WorkerClass)
    (now : Nat) :
    ∀ (jobs store : List Job) (pool : Pool) (nw : Nat),
      ∀ e1 ∈ (assignPass registry now jobs store pool nw).2.1, ∀ x ∈ e1.2,
        (∃ e ∈ pool, x ∈ e.2) ∨ ∃ jb ∈ jobs, x.job.id = jb.id
  | [], store, pool, nw, e1, he1, x, hx => by
    rw [assignPass_nil] at he1
    exact Or.inl ⟨e1, he1, hx⟩
  | job :: rest, store, pool, nw, e1, he1, x, hx => by
    have push : (∃ e ∈ pool, x ∈ e.2) ∨ (∃ jb ∈ rest, x.job.id = jb.id) →
        (∃ e ∈ pool, x ∈ e.2) ∨ ∃ jb ∈ job :: rest, x.job.id = jb.id := by
      rintro (h1 | ⟨jb, hjb, hid⟩)
      · exact Or.inl h1
      · exact Or.inr ⟨jb, List.mem_cons_of_mem _ hjb, hid⟩
    by_cases hcl : isClaimable now job = true
    · cases hreg0 : registry job.jobtype with
      | none =>
        rw [assignPass_unreg registry now job rest store pool nw hcl hreg0] at he1
        exact push (assignPass_pool_workers registry now rest store pool nw e1 he1 x hx)
      | some wc0 =>
        by_cases hlt :
            poolCount (ensureKey pool job.jobtype) job.jobtype < wc0.max_workers
        · cases hclaim : claimJob store job.id with
          | error e =>
            rw [assignPass_claim_fail registry now job rest store pool nw wc0 e
              hcl hreg0 hlt hclaim] at he1
            rcases assignPass_pool_workers registry now rest store _ nw e1 he1 x hx
              with h1 | h1
            · obtain ⟨e2, he2, hxe2⟩ := h1
              rcases mem_ensureKey pool job.jobtype e2 he2 with h2 | h2
              · exact Or.inl ⟨e2, h2, hxe2⟩
              · rw [h2] at hxe2
                cases hxe2
            · exact push (Or.inr h1)
          | ok store1 =>
            rw [assignPass_claim_ok registry now job rest store store1 pool nw wc0
              hcl hreg0 hlt hclaim] at he1
            rcases assignPass_pool_workers registry now rest store1 _ (nw + 1) e1 he1 x hx
              with h1 | h1
            · obtain ⟨e2, he2, hxe2⟩ := h1
              rcases mem_appendWorker (ensureKey pool job.jobtype) job.jobtype
                  { wid := nw, job := { job with claimed := true }, appname := "" }
                  e2 he2 x hxe2 with h2 | h2
              · obtain ⟨e3, he3, hxe3⟩ := h2
                rcases mem_ensureKey pool job.jobtype e3 he3 with h3 | h3
                · exact Or.inl ⟨e3, h3, hxe3⟩
                · rw [h3] at hxe3
                  cases hxe3
              · subst h2
                exact Or.inr ⟨job, List.mem_cons_self _ _, rfl⟩
            · exact push (Or.inr h1)
        · rw [assignPass_at_capacity registry now job rest store pool nw wc0
            hcl hreg0 hlt] at he1
          rcases assignPass_pool_workers registry now rest store _ nw e1 he1 x hx
            with h1 | h1
          · obtain ⟨e2, he2, hxe2⟩ := h1
            rcases mem_ensureKey pool job.jobtype e2 he2 with h2 | h2
            · exact Or.inl ⟨e2, h2, hxe2⟩
            · rw [h2] at hxe2
              cases hxe2
          · exact push (Or.inr h1)
    · rw [assignPass_not_claimable registry now job rest store pool nw hcl] at he1
      exact push (assignPass_pool_workers registry now rest store pool nw e1 he1 x hx)

theorem runTicks_nil (registry : String → Option WorkerClass) (st : MState) :
    runTicks registry [] st = (st, []) := rfl

theorem runTicks_cons (registry : String → Option WorkerClass) (t : TickInput)
    (rest : List TickInput) (st : MState) :
    runTicks registry (t :: rest) st =
      ((runTicks registry rest
          (delegate registry t.alive t.now { st with store := t.store }).1).1,
        (delegate registry t.alive t.now { st with store := t.store }).2 ++
          (runTicks registry rest
            (delegate registry t.alive t.now { st with store := t.store }).1).2) := rfl

/-- What one delegation tick does to a live worker whose job id is absent
from the snapshot: its jobtype's pool list keeps it (only extended at the
end by assignment), the stopping set gains its id exactly on the tick that
interrupts it and loses it only on observing non-liveness, at most one
interrupt is issued for it, and no other worker carrying its job id
appears. -/
theorem delegate_c1_tick (registry : String → Option WorkerClass)
    (A : Nat → Bool) (now : Nat) (st : MState) (jt : String) (ws : List Worker)
    (w : Worker) (hlk : lookupPool st.pool jt = some ws) (hmem : w ∈ ws)
    (halive : A w.wid = true)
    (habsent : w.job.id ∉ st.store.map Job.id)
    (huniq : ∀ e ∈ st.pool, ∀ x ∈ e.2, x.job.id = w.job.id → x = w) :
    (∃ ws1, lookupPool (delegate registry A now st).1.pool jt = some ws1 ∧
      w ∈ ws1 ∧
      (w.job.id ∉ st.stopping → w.job.id ∉ (delegate registry A now st).2 →
        posIn w ws1 < posIn w ws)) ∧
    ((w.job.id ∈ (delegate registry A now st).1.stopping) ↔
      (w.job.id ∈ st.stopping ∨ w.job.id ∈ (delegate registry A now st).2)) ∧
    (w.job.id ∈ st.stopping → w.job.id ∉ (delegate registry A now st).2) ∧
    ((delegate registry A now st).2.count w.job.id ≤ 1) ∧
    (∀ e ∈ (delegate registry A now st).1.pool, ∀ x ∈ e.2,
      x.job.id = w.job.id → x = w) := by
  have hA : ∀ e ∈ st.pool, ∀ x ∈ e.2, x.job.id = w.job.id → A x.wid = true :=
    fun e he x hx hid => (huniq e he x hx hid) ▸ halive
  simp only [delegate, get_all_jobs_full]
  obtain ⟨t1, t2, t3⟩ := reconcilePool_stopping_track A (st.store.map Job.id)
    w.job.id st.pool st.stopping hA
  refine ⟨?_, t1, t2, t3, ?_⟩
  · by_cases hcase : w.job.id ∉ st.stopping ∧
        w.job.id ∉ (reconcilePool A (st.store.map Job.id) st.pool st.stopping).2.2
    · obtain ⟨ws1, hl1, hm1, hp1⟩ := reconcilePool_progress A (st.store.map Job.id)
        w.job.id w rfl habsent st.pool st.stopping jt ws hlk hmem halive
        hcase.1 hcase.2
      obtain ⟨ext, hext⟩ := assignPass_lookup_extend registry now st.store st.store _
        st.nextWid jt ws1 hl1
      refine ⟨ws1 ++ ext, hext, List.mem_append.mpr (Or.inl hm1), ?_⟩
      intro _ _
      rw [posIn_append_left w ws1 ext hm1]
      exact hp1
    · obtain ⟨ws1, hl1, hm1⟩ := reconcilePool_mem_alive A (st.store.map Job.id)
        st.pool st.stopping jt ws w hlk hmem halive
      obtain ⟨ext, hext⟩ := assignPass_lookup_extend registry now st.store st.store _
        st.nextWid jt ws1 hl1
      refine ⟨ws1 ++ ext, hext, List.mem_append.mpr (Or.inl hm1), ?_⟩
      intro hns hni
      exact absurd ⟨hns, hni⟩ hcase
  · intro e he x hx hid
    rcases assignPass_pool_workers registry now st.store st.store _ st.nextWid
      e he x hx with h1 | h1
    · obtain ⟨e0, he0, hx0⟩ := h1
      obtain ⟨e3, he3, hx3⟩ := reconcilePool_workers_sub A (st.store.map Job.id)
        st.pool st.stopping e0 he0 x hx0
      exact huniq e3 he3 x hx3 hid
    · obtain ⟨jb, hjb, hidjb⟩ := h1
      have hj : w.job.id ∈ st.store.map Job.id := by
        rw [← hid, hidjb]
        exact List.mem_map_of_mem Job.id hjb
      exact absurd hj habsent

theorem runTicks_c1_aux (registry : String → Option WorkerClass) :
    ∀ (trace : List TickInput) (st : MState) (jt : String) (ws : List Worker)
      (w : Worker),
      lookupPool st.pool jt = some ws → w ∈ ws →
      (∀ e ∈ st.pool, ∀ x ∈ e.2, x.job.id = w.job.id → x = w) →
      (∀ t ∈ trace, t.alive w.wid = true) →
      (∀ t ∈ trace, w.job.id ∉ t.store.map Job.id) →
      ((w.job.id ∈ st.stopping →
        (runTicks registry trace st).2.count w.job.id = 0 ∧
        w.job.id ∈ (runTicks registry trace st).1.stopping) ∧
       (w.job.id ∉ st.stopping →
        (runTicks registry trace st).2.count w.job.id ≤ 1 ∧
        ((runTicks registry trace st).2.count w.job.id = 1 ↔
          w.job.id ∈ (runTicks registry trace st).1.stopping) ∧
        (posIn w ws < trace.length →
          (runTicks registry trace st).2.count w.job.id = 1)))
  | [], st, jt, ws, w, hlk, hmem, huniq, _, _ => by
    rw [runTicks_nil]
    constructor
    · intro hs
      exact ⟨rfl, hs⟩
    · intro hs
      refine ⟨by simp, ?_, ?_⟩
      · simp [hs]
      · intro hpos
        simp at hpos
  | t :: rest, st, jt, ws, w, hlk, hmem, huniq, halive, habsent => by
    have htick := delegate_c1_tick registry t.alive t.now
      { st with store := t.store } jt ws w hlk hmem
      (halive t (by simp)) (habsent t (by simp)) huniq
    obtain ⟨⟨ws1, hlk1, hmem1, hprog⟩, hiff, hnoint, hcount, huniq1⟩ := htick
    have IH := runTicks_c1_aux registry rest
      (delegate registry t.alive t.now { st with store := t.store }).1 jt ws1 w
      hlk1 hmem1 huniq1
      (fun t2 ht2 => halive t2 (by simp [ht2]))
      (fun t2 ht2 => habsent t2 (by simp [ht2]))
    rw [runTicks_cons]
    dsimp only
    rw [List.count_append]
    constructor
    · intro hs
      have hd0 : (delegate registry t.alive t.now
          { st with store := t.store }).2.count w.job.id = 0 :=
        List.count_eq_zero.mpr (hnoint hs)
      have hin1 : w.job.id ∈ (delegate registry t.alive t.now
          { st with store := t.store }).1.stopping :=
        hiff.mpr (Or.inl hs)
      obtain ⟨hr0, hrin⟩ := IH.1 hin1
      exact ⟨by omega, hrin⟩
    · intro hs
      by_cases hj1 : w.job.id ∈ (delegate registry t.alive t.now
          { st with store := t.store }).2
      · have hd1 : (delegate registry t.alive t.now
            { st with store := t.store }).2.count w.job.id = 1 := by
          have hpos := List.count_pos_iff.mpr hj1
          omega
        have hin1 : w.job.id ∈ (delegate registry t.alive t.now
            { st with store := t.store }).1.stopping :=
          hiff.mpr (Or.inr hj1)
        obtain ⟨hr0, hrin⟩ := IH.1 hin1
        refine ⟨by omega, ?_, fun _ => by omega⟩
        constructor
        · intro _
          exact hrin
        · intro _
          omega
      · have hd0 : (delegate registry t.alive t.now
            { st with store := t.store }).2.count w.job.id = 0 :=
          List.count_eq_zero.mpr hj1
        have hnin1 : w.job.id ∉ (delegate registry t.alive t.now
            { st with store := t.store }).1.stopping := by
          intro hmem2
          rcases hiff.mp hmem2 with h1 | h1
          · exact hs h1
          · exact hj1 h1
        obtain ⟨ihle, ihiff, ihpos⟩ := IH.2 hnin1
        refine ⟨by omega, ?_, ?_⟩
        · rw [show (delegate registry t.alive t.now
              { st with store := t.store }).2.count w.job.id +
              (runTicks registry rest (delegate registry t.alive t.now
                { st with store := t.store }).1).2.count w.job.id =
              (runTicks registry rest (delegate registry t.alive t.now
                { st with store := t.store }).1).2.count w.job.id by omega]
          exact ihiff
        · intro hpos
          have hp1 : posIn w ws1 < posIn w ws := hprog hs hj1
          have : posIn w ws1 < rest.length := by
            simp only [List.length_cons] at hpos
            omega
          have := ihpos this
          omega

/-- C1: for a worker in the pool that stays live while its job id is absent
from every tick's snapshot, the delegation loop issues at most one interrupt
across all subsequent ticks — the id enters the stopping set exactly when the
interrupt is issued and is removed only when the worker is observed
non-live — and exactly one interrupt once enough ticks have run for the
reconciliation iterator to reach the worker. -/
theorem c1_single_interrupt (registry : String → Option WorkerClass)
    (trace : List TickInput) (st : MState) (jt : String) (ws : List Worker)
    (w : Worker)
    (hlk : lookupPool st.pool jt = some ws) (hmem : w ∈ ws)
    (huniq : ∀ e ∈ st.pool, ∀ x ∈ e.2, x.job.id = w.job.id → x = w)
    (halive : ∀ t ∈ trace, t.alive w.wid = true)
    (habsent : ∀ t ∈ trace, w.job.id ∉ t.store.map Job.id)
    (hstop : w.job.id ∉ st.stopping) :
    (runTicks registry trace st).2.count w.job.id ≤ 1 ∧
    ((runTicks registry trace st).2.count w.job.id = 1 ↔
      w.job.id ∈ (runTicks registry trace st).1.stopping) ∧
    (posIn w ws < trace.length →
      (runTicks registry trace st).2.count w.job.id = 1) :=
  (runTicks_c1_aux registry trace st jt ws w hlk hmem huniq halive habsent).2 hstop

/-- Registry, state and trace for the C1 witness: one live worker whose job
record is gone from the store. -/
def c1Registry : String → Option WorkerClass := fun _ => none

def c1State : MState :=
  { store := [], pool := [("x", [sampleWorker 3 5 "x"])], stopping := [],
    nextWid := 0 }

def c1Trace : List TickInput := [{ store := [], alive := fun _ => true, now := 0 }]

theorem c1_single_interrupt_witness :
    ((∀ e ∈ c1State.pool, ∀ x ∈ e.2,
        x.job.id = (sampleWorker 3 5 "x").job.id → x = sampleWorker 3 5 "x") ∧
      (∀ t ∈ c1Trace, t.alive (sampleWorker 3 5 "x").wid = true) ∧
      (∀ t ∈ c1Trace, (sampleWorker 3 5 "x").job.id ∉ t.store.map Job.id) ∧
      (sampleWorker 3 5 "x").job.id ∉ c1State.stopping) ∧
    ((runTicks c1Registry c1Trace c1State).2.count
        (sampleWorker 3 5 "x").job.id ≤ 1 ∧
      ((runTicks c1Registry c1Trace c1State).2.count
          (sampleWorker 3 5 "x").job.id = 1 ↔
        (sampleWorker 3 5 "x").job.id ∈
          (runTicks c1Registry c1Trace c1State).1.stopping) ∧
      (posIn (sampleWorker 3 5 "x") [sampleWorker 3 5 "x"] < c1Trace.length →
        (runTicks c1Registry c1Trace c1State).2.count
          (sampleWorker 3 5 "x").job.id = 1)) :=
  ⟨⟨by decide, by decide, by decide, by decide⟩,
   c1_single_interrupt c1Registry c1Trace c1State "x" [sampleWorker 3 5 "x"]
     (sampleWorker 3 5 "x") rfl (by decide) (by decide) (by decide) (by decide)
     (by decide)⟩

end FourCat
